import Mathlib

/-!
Verification development for `lowatt_collect` (lowatt_collect.py): a shallow
embedding of the source-tree traversal, command generation, environment
templating, and the collect lifecycle (staging / destination / quarantine
moves and acknowledgment calls), together with theorems checking the
specification's claims against this embedding.

External effects are modelled by explicit parameters: `shlex.split` and
`subprocess.check_call` are oracle functions bundled in a `World`, directory
listings and `isdir` are an `FS` oracle, and the files produced into the
staging directory by an external collect process are an explicit input list.
Python exceptions that the code does not catch are modelled with `Except`.
-/

namespace LowattCollect

/-- A process environment, as an insertion-ordered association list
(modelling a Python `dict` of strings). -/
abbrev Env := List (String × String)

/-- Model of `env[k] = v` on a Python dict: replaces the binding if present.
(The dict's iteration order is only ever observed through `sorted`, so
moving the key to the end is unobservable.) -/
def envSet (env : Env) (k v : String) : Env :=
  env.filter (fun p => p.1 ≠ k) ++ [(k, v)]

/-- Model of `env.update(other)`: later bindings win. -/
def envUpdate (env : Env) (other : Env) : Env :=
  other.foldl (fun e p => envSet e p.1 p.2) env

/-- Model of `sorted(env)` on a Python dict: its keys, sorted. -/
def sortedKeys (env : Env) : List String :=
  (env.map Prod.fst).insertionSort (fun a b => a ≤ b)

/-- `s` starts with `pre` (structural model of `str.startswith`). -/
def strStartsWith (s pre : String) : Bool :=
  pre.toList.isPrefixOf s.toList

/-- `s` ends with `suf` (structural model of `str.endswith`). -/
def strEndsWith (s suf : String) : Bool :=
  suf.toList.reverse.isPrefixOf s.toList.reverse

/-- Split a character list on a separator character (model of
`str.split(sep)` for a one-character separator, and of
`String.splitOn`). -/
def splitOnChar (c : Char) : List Char → List (List Char)
  | [] => [[]]
  | x :: rest =>
    let r := splitOnChar c rest
    if x = c then [] :: r
    else
      match r with
      | h :: t => (x :: h) :: t
      | [] => [[x]]

def strSplitOnChar (c : Char) (s : String) : List String :=
  (splitOnChar c s.toList).map String.mk

/-- `needle` occurs as a contiguous run inside `hay` (model of Python
substring membership `needle in hay`). -/
def infixOfChars (needle : List Char) : List Char → Bool
  | [] => needle.isEmpty
  | c :: rest => needle.isPrefixOf (c :: rest) || infixOfChars needle rest

/-- Model of `os.path.join(a, b)` for POSIX paths: an absolute second
component discards the first. -/
def pathJoin (a b : String) : String :=
  if strStartsWith b "/" then b
  else if a = "" then b
  else if strEndsWith a "/" then a ++ b
  else a ++ "/" ++ b

/-- Model of `os.path.join(a, *parts)`. -/
def joinAll (a : String) (parts : List String) : String :=
  parts.foldl pathJoin a

/-- Model of `os.path.dirname(p)` for POSIX paths: the part before the last
separator, with trailing separators stripped unless it is all separators. -/
def dirname (p : String) : String :=
  let headRev := p.toList.reverse.dropWhile (· ≠ '/')
  if headRev.isEmpty ∨ headRev.all (· = '/') then String.mk headRev.reverse
  else String.mk (headRev.dropWhile (· = '/')).reverse

/-- Path split into nonempty segments (used by `relpath` modelling). -/
def pathSegs (p : String) : List String :=
  (strSplitOnChar '/' p).filter (· ≠ "")

/-- Length of the common prefix of two segment lists. -/
def commonPrefixLen : List String → List String → Nat
  | a :: as, b :: bs => if a = b then commonPrefixLen as bs + 1 else 0
  | _, _ => 0

/-- Model of `os.path.relpath(d, root)` for already-normalized absolute
POSIX paths (no `.`/`..` segments in the inputs). -/
def relpath (d root : String) : String :=
  let ds := pathSegs d
  let rs := pathSegs root
  let c := commonPrefixLen ds rs
  let ups := rs.length - c
  let rest := ds.drop c
  if ups = 0 ∧ rest = [] then "."
  else String.intercalate "/" (List.replicate ups ".." ++ rest)

/-- Errors raised by `str.format`: `KeyError` for a placeholder naming an
absent key (caught by `_call`), `ValueError` for a malformed format string
(uncaught, aborts the command). -/
inductive FmtError where
  | keyError (name : String)
  | valueError
deriving Repr, DecidableEq

mutual
/-- Model of Python `s.format(**env)` restricted to the feature set the
program uses: literal text, `{NAME}` placeholders, and `{{`/`}}` escapes
(no format specs, indexing or attribute access). -/
def pyFormatAux (env : Env) : List Char → Except FmtError String
  | [] => .ok ""
  | '{' :: '{' :: rest => (fun s => "\x7b" ++ s) <$> pyFormatAux env rest
  | '}' :: '}' :: rest => (fun s => "\x7d" ++ s) <$> pyFormatAux env rest
  | '}' :: _ => .error .valueError
  | '{' :: rest => pyFormatName env [] rest
  | c :: rest => (fun s => String.mk [c] ++ s) <$> pyFormatAux env rest

/-- Scanning a `{NAME}` placeholder: accumulate the field name up to the
closing brace, then substitute (`KeyError` when the name is unbound,
`ValueError` when the brace is never closed). -/
def pyFormatName (env : Env) (acc : List Char) :
    List Char → Except FmtError String
  | [] => .error .valueError
  | '}' :: rest =>
    match List.lookup (String.mk acc.reverse) env with
    | some v => (fun s => v ++ s) <$> pyFormatAux env rest
    | none => .error (.keyError (String.mk acc.reverse))
  | c :: rest => pyFormatName env (c :: acc) rest
end

def pyFormat (env : Env) (s : String) : Except FmtError String :=
  pyFormatAux env s.toList

/-- Oracles for the external world: `shlexSplit` models `shlex.split`,
`spawn` models `subprocess.check_call` (true = the process exited 0). -/
structure World where
  shlexSplit : String → List String
  spawn : List String → Env → Bool

/-- An error descriptor appended to a command's error list: the `KeyError`
raised by formatting a token with an absent variable, or the
`CalledProcessError`/`IOError` raised by a failed process invocation. -/
inductive CmdError where
  | keyError (name : String)
  | calledProcessError (argv : List String)
deriving Repr, DecidableEq

/-- Messages emitted through `LOGGER.error` (identified by which format
string of the source is used, with its arguments). -/
inductive LogMsg where
  | unknownEnvVar (cmd : String) (available : List String)
  | errorRunning (cmd : String)
  | noSourceMatching (dirpath : String)
  | noPostcollectToHandle (fpath : String)
  | fileNotUnderRoot (fpath root : String)
  | cantFindSource (fpath : String)
  | sourceHasNoPostcollect (key fpath : String)
  | generatedException
deriving Repr, DecidableEq

/-- Observable outcome of running one or more command templates: the
accumulated error list, the argv of each spawned process in order, and the
emitted log messages. -/
structure ExecOut where
  errors : List CmdError
  spawned : List (List String)
  logs : List LogMsg
deriving Repr, DecidableEq

def ExecOut.append (a b : ExecOut) : ExecOut :=
  ⟨a.errors ++ b.errors, a.spawned ++ b.spawned, a.logs ++ b.logs⟩

/-- Model of `[arg.format(**env) for arg in shlex.split(base_cmd)]`:
stops at the first formatting error. -/
def formatArgs (W : World) (env : Env) (base_cmd : String) :
    Except FmtError (List String) :=
  (W.shlexSplit base_cmd).mapM (pyFormat env)

/-- Model of `_call(env, base_cmd, files)`.  A `KeyError` from formatting is
caught: one error is recorded, the sorted available variable names are
logged, and no process is spawned.  A `ValueError` from formatting is not
caught and propagates (`.error`).  Otherwise the formatted argv plus the
`files` arguments is spawned, and a nonzero exit records one error. -/
def call (W : World) (env : Env) (base_cmd : String) (files : List String) :
    Except FmtError ExecOut :=
  match formatArgs W env base_cmd with
  | .error (.keyError n) =>
    .ok ⟨[.keyError n], [], [.unknownEnvVar base_cmd (sortedKeys env)]⟩
  | .error .valueError => .error .valueError
  | .ok args =>
    let argv := args ++ files
    if W.spawn argv env then .ok ⟨[], [argv], []⟩
    else .ok ⟨[.calledProcessError argv], [argv], [.errorRunning base_cmd]⟩

/-- The loop of `Command.execute`: `for base_cmd in self.cmds: errors +=
_call(env, base_cmd, files)` — every template in the list is run, in order,
and the error lists are concatenated. -/
def callSeq (W : World) (env : Env) (files : List String) :
    List String → Except FmtError ExecOut
  | [] => .ok ⟨[], [], []⟩
  | c :: rest => do
    let o ← call W env c files
    let o2 ← callSeq W env files rest
    .ok (o.append o2)

/-- Model of `Command.init_env`: copies the environment and binds SOURCE,
COLLECTOR, DIR, and (when ROOT is present) OUTPUT_DIR. -/
def init_env (env : Env) (path : List String) (directory : String) : Env :=
  let env1 := envSet env "SOURCE" (path.headD "")
  let env2 := envSet env1 "COLLECTOR" (String.intercalate "." path)
  let env3 := envSet env2 "DIR" directory
  match List.lookup "ROOT" env3 with
  | some root => envSet env3 "OUTPUT_DIR" (joinAll root path)
  | none => env3

/-- Model of `Command.execute(directory, env, *files)`. -/
def Command.execute (W : World) (cmds : List String) (path : List String)
    (directory : String) (env : Env) (files : List String) :
    Except FmtError ExecOut :=
  callSeq W (init_env env path directory) files cmds

/-- A value in the parsed YAML sources catalog: a string (a command), a
list of strings (a postcollect command list), or a nested insertion-ordered
mapping. -/
inductive SVal where
  | vstr : String → SVal
  | vlist : List String → SVal
  | vdict : List (String × SVal) → SVal

/-- Uncaught Python exceptions of the command-generation code. -/
inductive PyErr where
  | keyError (k : String)
  | typeError
  | attributeError
deriving Repr, DecidableEq

/-- Model of iterating `set(x)` for the `SOURCE_KEYS & set(source_def)`
test: a dict gives its keys, a list its elements, a string its characters
(as one-character strings). -/
def pySetMembers : SVal → List String
  | .vstr s => s.toList.map (fun c => String.mk [c])
  | .vlist l => l
  | .vdict d => d.map Prod.fst

/-- `SOURCE_KEYS & set(source_def)` is nonempty, with
`SOURCE_KEYS = {'collect', 'postcollect'}`. -/
def hasSourceKey (v : SVal) : Bool :=
  (pySetMembers v).contains "collect" || (pySetMembers v).contains "postcollect"

/-- Model of `k in v` (Python membership): dict → key, list → element,
string → substring. -/
def pyIn (k : String) (v : SVal) : Bool :=
  match v with
  | .vdict d => (d.map Prod.fst).contains k
  | .vlist l => l.contains k
  | .vstr s => infixOfChars k.toList s.toList

/-- Model of `v[k]`: a dict raises `KeyError` on a missing key; indexing a
string or list with a string key raises `TypeError`. -/
def svalIndex (v : SVal) (k : String) : Except PyErr SVal :=
  match v with
  | .vdict d =>
    match List.lookup k d with
    | some x => .ok x
    | none => .error (.keyError k)
  | _ => .error .typeError

/-- Model of `v.get(k)` on a dict; `.get` on a string or list raises
`AttributeError`. -/
def svalGet (v : SVal) (k : String) : Except PyErr (Option SVal) :=
  match v with
  | .vdict d => .ok (List.lookup k d)
  | _ => .error .attributeError

/-- Python truthiness of an optional catalog value (`None`, `''`, `[]` and
`{}` are falsy). -/
def truthy : Option SVal → Bool
  | none => false
  | some (.vstr s) => s ≠ ""
  | some (.vlist l) => !l.isEmpty
  | some (.vdict d) => !d.isEmpty

/-- The `str → [str]` normalization of `Command.__init__`; iterating a dict
yields its keys. -/
def asCmdList : SVal → List String
  | .vstr s => [s]
  | .vlist l => l
  | .vdict d => d.map Prod.fst

mutual
/-- Model of `source_defs(sources)` (the loop body over `sources.items()`):
yields `(source_def, path)` whenever `SOURCE_KEYS & set(source_def)` is
nonempty, then recurses into `source_def` when it is a dict. -/
def source_defs_list : List (String × SVal) → List String →
    List (SVal × List String)
  | [], _ => []
  | (k, v) :: rest, path =>
    (if hasSourceKey v then [(v, path ++ [k])] else []) ++
    source_defs_val v (path ++ [k]) ++
    source_defs_list rest path

def source_defs_val : SVal → List String → List (SVal × List String)
  | .vdict d, p => source_defs_list d p
  | .vstr _, _ => []
  | .vlist _, _ => []
end

/-- `source_defs(sources)` with the initial empty path. -/
def source_defs (sources : List (String × SVal)) : List (SVal × List String) :=
  source_defs_list sources []

mutual
/-- Depth-first preorder enumeration of every catalog entry (insertion
order), paired with its root-relative path.  Reference enumeration used to
state traversal claims. -/
def allNodes_list : List (String × SVal) → List String →
    List (SVal × List String)
  | [], _ => []
  | (k, v) :: rest, path =>
    (v, path ++ [k]) :: (allNodes_val v (path ++ [k]) ++ allNodes_list rest path)

def allNodes_val : SVal → List String → List (SVal × List String)
  | .vdict d, p => allNodes_list d p
  | .vstr _, _ => []
  | .vlist _, _ => []
end

/-- Whether a catalog node (as a dict) carries a `postcollect` key: the
spec's notion of a "defining node". -/
def carriesPostcollect : SVal → Bool
  | .vdict d => (d.map Prod.fst).contains "postcollect"
  | _ => false

/-- In-memory form of a `CollectSource` command (the `str → [str]`
normalization of `Command.__init__` applied to its `cmds`; `ack_cmd` is
`source_def.get('collectack')`, kept when it is a string — the
configuration schema declares `collectack` values to be command strings). -/
structure CollectSource where
  cmds : List String
  path : List String
  postcollect_cmds : List String
  ack_cmd : Option String
  postcollect_args : Bool
deriving Repr, DecidableEq

/-- In-memory form of a `PostCollectFiles` command. -/
structure PostCollectFiles where
  cmds : List String
  path : List String
  directory : String
  files : List String
deriving Repr, DecidableEq

def ackString : Option SVal → Option String
  | some (.vstr s) => some s
  | _ => none

/-- The value `source_def.get('collect')` when it is a (command) string. -/
def getCollectString (sd : SVal) : Except PyErr (Option String) := do
  match ← svalGet sd "collect" with
  | some (.vstr s) => .ok (some s)
  | _ => .ok none

/-- Model of `collect_commands(sources, collect_options, call_postcollect,
postcollect_args)`: one `CollectSource` per yielded source definition whose
`collect` entry is truthy; when `call_postcollect` is set, the mandatory
`source_def['postcollect']` lookup raises `KeyError` if the key is absent,
which is not caught and aborts command generation. -/
def collect_commands (sources : List (String × SVal))
    (collect_options : List String) (call_postcollect postcollect_args : Bool) :
    Except PyErr (List CollectSource) :=
  go (source_defs sources)
where
  go : List (SVal × List String) → Except PyErr (List CollectSource)
  | [] => .ok []
  | (sd, path) :: rest => do
    match ← getCollectString sd with
    | some s =>
      if s ≠ "" then do
        let cmdStr := if collect_options ≠ [] then
            s ++ " " ++ String.intercalate " " collect_options
          else s
        let pc ← if call_postcollect then do
            .ok (asCmdList (← svalIndex sd "postcollect"))
          else .ok []
        let ack := ackString ((svalGet sd "collectack").toOption.join)
        let tail ← go rest
        .ok ({ cmds := [cmdStr], path := path, postcollect_cmds := pc,
               ack_cmd := ack, postcollect_args := postcollect_args } :: tail)
      else go rest
    | none => go rest

/-- The configuration document: `root` (required) and the `environment`
overlay (insertion-ordered, keys distinct as in a Python dict). -/
structure Config where
  root : String
  environment : List (String × String)
deriving Repr, DecidableEq

/-- Mutable process-global state touched by `build_env`: `os.environ` and
the configuration object (whose `environment` dict `build_env` rewrites in
place). -/
structure PyState where
  osEnviron : Env
  config : Config
deriving Repr, DecidableEq

/-- The in-place rewriting loop of `build_env` over `config['environment']`:
each value is formatted against the dict's current state (earlier keys
already rewritten, later keys still raw) and then, when a source file is
given, joined after that file's directory. -/
def expandEnviron (source_file : Option String) :
    List (String × String) → List (String × String) →
    Except FmtError (List (String × String))
  | done, [] => .ok done
  | done, (k, v) :: rest => do
    let v1 ← pyFormat (done ++ (k, v) :: rest) v
    let v2 := match source_file with
      | some f => pathJoin (dirname f) v1
      | none => v1
    expandEnviron source_file (done ++ [(k, v2)]) rest

/-- Model of `build_env(config, source_file, log_level)`: copies
`os.environ`, binds ROOT (joined after the source file's directory when
given) and LOG_LEVEL, rewrites `config['environment']` in place, and
overlays it; returns the environment and the updated global state. -/
def build_env (st : PyState) (source_file log_level : Option String) :
    Except FmtError (Env × PyState) := do
  let env := st.osEnviron
  let root := match source_file with
    | some f => pathJoin (dirname f) st.config.root
    | none => st.config.root
  let env := envSet env "ROOT" root
  let env := match log_level with
    | some l => envSet env "LOG_LEVEL" l
    | none => env
  let fe ← expandEnviron source_file [] st.config.environment
  .ok (envUpdate env fe,
       { st with config := { st.config with environment := fe } })

/-- Per-file loop state of `CollectSource.run`: accumulated errors, spawn
and log traces, the contents of the destination directory and of its lazily
created `errors` quarantine subdirectory (`none` while not created), the
`success_files`/`error_files` accumulators, and the `files` argument of
each per-file `PostCollectFiles` run. -/
structure ProcState where
  errors : List CmdError
  spawned : List (List String)
  logs : List LogMsg
  dest : List String
  quar : Option (List String)
  successFiles : List String
  errorFiles : List String
  pcRuns : List (List String)
deriving Repr, DecidableEq

/-- Model of `shutil.move` into a directory listing: overwrites silently. -/
def addFile (d : List String) (f : String) : List String :=
  if f ∈ d then d else d ++ [f]

/-- The per-file loop of `CollectSource.run`: for every staging file whose
name is not hidden, run a single-file `PostCollectFiles`; on errors move the
file to the (lazily created) quarantine, otherwise to the destination. -/
def processFiles (W : World) (pcCmds : List String) (pa : Bool)
    (path : List String) (tmpdir : String) (env : Env) :
    List String → ProcState → Except FmtError ProcState
  | [], st => .ok st
  | fname :: rest, st =>
    if strStartsWith fname "." then
      processFiles W pcCmds pa path tmpdir env rest st
    else do
      let fpath := pathJoin tmpdir fname
      let files := if pa then [fpath] else []
      let out ← Command.execute W pcCmds path tmpdir env files
      let st1 : ProcState :=
        { st with
          errors := st.errors ++ out.errors,
          spawned := st.spawned ++ out.spawned,
          logs := st.logs ++ out.logs,
          pcRuns := st.pcRuns ++ [files] }
      let st2 :=
        if out.errors.isEmpty then
          { st1 with dest := addFile st1.dest fname,
                     successFiles := st1.successFiles ++ [fname] }
        else
          { st1 with quar := some (addFile (st1.quar.getD []) fname),
                     errorFiles := st1.errorFiles ++ [fname] }
      processFiles W pcCmds pa path tmpdir env rest st2

/-- Observable outcome of one `CollectSource.run`: the returned error list,
traces, final destination and quarantine contents, the success/error
basename accumulators, the per-file postcollect runs, and the environment
of each acknowledgment invocation. -/
structure RunOut where
  errors : List CmdError
  spawned : List (List String)
  logs : List LogMsg
  dest : List String
  quar : Option (List String)
  successFiles : List String
  errorFiles : List String
  pcRuns : List (List String)
  ackEnvs : List Env
deriving Repr, DecidableEq

def RunOut.ofState (st : ProcState) : RunOut :=
  { errors := st.errors, spawned := st.spawned, logs := st.logs,
    dest := st.dest, quar := st.quar, successFiles := st.successFiles,
    errorFiles := st.errorFiles, pcRuns := st.pcRuns, ackEnvs := [] }

/-- The environment of the acknowledgment `_call`: `init_env` over the
destination directory, then TMPDIR, SUCCESS_FILES and ERROR_FILES. -/
def ackEnv (env : Env) (path : List String) (destdir tmpdir : String)
    (succ err : List String) : Env :=
  envSet (envSet (envSet (init_env env path destdir) "TMPDIR" tmpdir)
      "SUCCESS_FILES" (String.intercalate ";" succ))
    "ERROR_FILES" (String.intercalate ";" err)

/-- Model of `CollectSource.run(root_directory, env)`.  The staging
directory name `tmpdir`, the listing `staged` that the external collect
invocation leaves there, and the initial destination/quarantine listings
are explicit inputs.  The collect templates run first (their errors kept
even on failure), then the per-file loop, then — when an acknowledgment
template is configured — one `_call` whose returned error list is
discarded. -/
def CollectSource.run (W : World) (cs : CollectSource) (root : String)
    (env : Env) (tmpdir : String) (staged : List String)
    (dest0 : List String) (quar0 : Option (List String)) :
    Except FmtError RunOut := do
  let destdir := joinAll root cs.path
  let collectOut ← Command.execute W cs.cmds cs.path tmpdir env []
  let st ← processFiles W cs.postcollect_cmds cs.postcollect_args cs.path
      tmpdir env staged
      { errors := collectOut.errors, spawned := collectOut.spawned,
        logs := collectOut.logs, dest := dest0, quar := quar0,
        successFiles := [], errorFiles := [], pcRuns := [] }
  match cs.ack_cmd with
  | some ack =>
    if ack ≠ "" then do
      let env4 := ackEnv env cs.path destdir tmpdir
          st.successFiles st.errorFiles
      let ackOut ← call W env4 ack []
      .ok { RunOut.ofState st with
            spawned := st.spawned ++ ackOut.spawned,
            logs := st.logs ++ ackOut.logs,
            ackEnvs := [env4] }
    else .ok (RunOut.ofState st)
  | none => .ok (RunOut.ofState st)

/-- Model of the aggregation of `_execute`: each command's error list is
concatenated in order; a command raising an unexpected exception
contributes no errors but one "generated an exception" log line, and does
not affect its siblings. -/
def executeAgg : List (Except FmtError ExecOut) → ExecOut
  | [] => ⟨[], [], []⟩
  | .ok o :: rest => o.append (executeAgg rest)
  | .error _ :: rest =>
    (⟨[], [], [.generatedException]⟩ : ExecOut).append (executeAgg rest)

/-- A directory tree, as `os.listdir` exposes it: each entry is a name
paired with `none` (a regular file) or `some` subtree (a subdirectory), in
listing order. -/
inductive FSDir where
  | node : List (String × Option FSDir) → FSDir

def FSDir.entries : FSDir → List (String × Option FSDir)
  | .node l => l

mutual
/-- Model of one level of `postcollect_commands(directory, sources, _path)`:
subdirectories absent from `sources` are logged (unless named `errors`) and
skipped, matched subdirectories are recursed into, files are collected when
`sources` carries `postcollect` (logged and skipped otherwise); after the
loop the directory's own files, if any, form one `PostCollectFiles`.
Returns the yielded commands and the logs. -/
def pcc_dir (dirpath : String) (src : SVal) (path : List String) (pa : Bool)
    (d : FSDir) : Except PyErr (List PostCollectFiles × List LogMsg) :=
  match d with
  | .node l => do
    let (sub, logs, files) ← pcc_entries dirpath src path pa l
    if files.isEmpty then
      .ok (sub, logs)
    else do
      let pcv ← svalIndex src "postcollect"
      .ok (sub ++ [{ cmds := asCmdList pcv, path := path, directory := dirpath,
                     files := if pa then files else [] }], logs)
termination_by sizeOf d
decreasing_by all_goals simp_wf

def pcc_entries (dirpath : String) (src : SVal) (path : List String)
    (pa : Bool) :
    List (String × Option FSDir) →
    Except PyErr (List PostCollectFiles × List LogMsg × List String)
  | [] => .ok ([], [], [])
  | (fname, ent) :: rest => do
    let fpath := pathJoin dirpath fname
    match ent with
    | some sub =>
      if pyIn fname src then do
        let subSrc ← svalIndex src fname
        let (b1, l1) ← pcc_dir fpath subSrc (path ++ [fname]) pa sub
        let (b2, l2, fs) ← pcc_entries dirpath src path pa rest
        .ok (b1 ++ b2, l1 ++ l2, fs)
      else do
        let (b2, l2, fs) ← pcc_entries dirpath src path pa rest
        .ok (b2, (if fname ≠ "errors" then [.noSourceMatching fpath] else [])
                   ++ l2, fs)
    | none =>
      if pyIn "postcollect" src then do
        let (b2, l2, fs) ← pcc_entries dirpath src path pa rest
        .ok (b2, l2, fpath :: fs)
      else do
        let (b2, l2, fs) ← pcc_entries dirpath src path pa rest
        .ok (b2, .noPostcollectToHandle fpath :: l2, fs)
termination_by l => sizeOf l
decreasing_by all_goals (simp_wf) <;> omega
end

/-- `postcollect_commands(directory, sources)` with the initial empty
path. -/
def postcollect_commands (dirpath : String) (src : SVal) (pa : Bool)
    (d : FSDir) : Except PyErr (List PostCollectFiles × List LogMsg) :=
  pcc_dir dirpath src [] pa d

/-- Filesystem oracles used by `files_postcollect_commands`: directory
listings, the `isdir` predicate, and the working directory for `abspath`.
Directories passed to `listdir` are assumed to exist. -/
structure FS where
  listdir : String → List String
  isdir : String → Bool
  cwd : String

/-- Model of `os.path.abspath` for already-normalized paths. -/
def abspath (fs : FS) (p : String) : String :=
  if strStartsWith p "/" then p else pathJoin fs.cwd p

/-- `file_source = sources; for part in path: file_source =
file_source[part]` — the catalog walk of `source_for_path`. -/
def lookupPath (v : SVal) : List String → Except PyErr SVal
  | [] => .ok v
  | k :: rest => do lookupPath (← svalIndex v k) rest

/-- The memoization cache of `files_postcollect_commands`, keyed by the
dot-joined path. -/
abbrev Cache := List (String × SVal)

/-- Model of `source_for_path(path)`: consult the cache, else walk the
catalog and memoize. -/
def source_for_path (sources : SVal) (cache : Cache) (path : List String) :
    Except PyErr (String × SVal × Cache) := do
  let key := String.intercalate "." path
  match List.lookup key cache with
  | some v => .ok (key, v, cache)
  | none => do
    let v ← lookupPath sources path
    .ok (key, v, cache ++ [(key, v)])

/-- The per-entry accumulator of `files_postcollect_commands`: the memo
cache, the `files_by_source` dict in first-insertion order, and the
logs. -/
structure FpcState where
  cache : Cache
  filesBySource : List (String × List String)
  logs : List LogMsg

/-- `files_by_source[key] += files` on a `defaultdict(list)`. -/
def dictAppend (d : List (String × List String)) (k : String)
    (v : List String) : List (String × List String) :=
  match d with
  | [] => [(k, v)]
  | (k', xs) :: rest =>
    if k' = k then (k', xs ++ v) :: rest else (k', xs) :: dictAppend rest k v

/-- The files of a dotted-source entry: `os.listdir` of the source's
destination directory joined onto it, directories filtered out. -/
def sourceDirFiles (fs : FS) (dir : String) : List String :=
  ((fs.listdir dir).map (fun n => pathJoin dir n)).filter
    (fun p => !fs.isdir p)

/-- One iteration of the `for fpath in files` loop of
`files_postcollect_commands`: interpret the entry as a dotted source path,
falling back on `KeyError` to a literal filesystem path under root; record
the resulting files, or log and drop the entry. -/
def processEntry (fs : FS) (sources : SVal) (root : String) (st : FpcState)
    (fpath : String) : Except PyErr FpcState := do
  let path := strSplitOnChar '.' fpath
  match source_for_path sources st.cache path with
  | .ok (key, fileSource, cache1) => do
    let fls := sourceDirFiles fs (joinAll root path)
    match ← svalGet fileSource "postcollect" with
    | some pv =>
      if truthy (some pv) then
        .ok { st with cache := cache1,
                      filesBySource := dictAppend st.filesBySource key fls }
      else
        .ok { st with cache := cache1,
                      logs := st.logs ++ [.sourceHasNoPostcollect key fpath] }
    | none =>
      .ok { st with cache := cache1,
                    logs := st.logs ++ [.sourceHasNoPostcollect key fpath] }
  | .error (.keyError _) => do
    let fabs := abspath fs fpath
    if !strStartsWith fabs root then
      .ok { st with logs := st.logs ++ [.fileNotUnderRoot fabs root] }
    else
      let path2 := (strSplitOnChar '/' (relpath (dirname fabs) root)).filter (· ≠ "")
      match source_for_path sources st.cache path2 with
      | .ok (key, fileSource, cache1) => do
        match ← svalGet fileSource "postcollect" with
        | some pv =>
          if truthy (some pv) then
            .ok { st with cache := cache1,
                          filesBySource :=
                            dictAppend st.filesBySource key [fabs] }
          else
            .ok { st with cache := cache1,
                          logs := st.logs ++
                            [.sourceHasNoPostcollect key fabs] }
        | none =>
          .ok { st with cache := cache1,
                        logs := st.logs ++ [.sourceHasNoPostcollect key fabs] }
      | .error (.keyError _) =>
        .ok { st with logs := st.logs ++ [.cantFindSource fabs] }
      | .error e => .error e
  | .error e => .error e

/-- The final loop of `files_postcollect_commands`: one `PostCollectFiles`
per `files_by_source` key, using the cached node's `postcollect` value. -/
def finalBatches (root : String) (cache : Cache) :
    List (String × List String) → Except PyErr (List PostCollectFiles)
  | [] => .ok []
  | (key, fls) :: rest => do
    let node ← match List.lookup key cache with
      | some v => .ok v
      | none => .error (.keyError key)
    let pcv ← svalIndex node "postcollect"
    let tail ← finalBatches root cache rest
    let segs := strSplitOnChar '.' key
    .ok ({ cmds := asCmdList pcv, path := segs,
           directory := joinAll root segs, files := fls } :: tail)

/-- Model of `files_postcollect_commands(files, sources, root_directory)`
(`root_directory` already absolute, as `postcollect` passes it). -/
def files_postcollect_commands (fs : FS) (files : List String)
    (sources : List (String × SVal)) (root : String) :
    Except PyErr (List PostCollectFiles × List LogMsg) := do
  let st ← files.foldlM (processEntry fs (.vdict sources) root)
      { cache := [], filesBySource := [], logs := [] }
  let batches ← finalBatches root st.cache st.filesBySource
  .ok (batches, st.logs)


/-! ## Traversal: `source_defs` (claim C5) -/

mutual
theorem source_defs_list_eq_filter (d : List (String × SVal))
    (path : List String) :
    source_defs_list d path =
      (allNodes_list d path).filter (fun x => hasSourceKey x.1) := by
  match d with
  | [] => rfl
  | (k, v) :: rest =>
    rw [source_defs_list, allNodes_list, List.filter_cons,
      source_defs_val_eq_filter v (path ++ [k]),
      source_defs_list_eq_filter rest path, List.filter_append]
    by_cases h : hasSourceKey v <;> simp [h]

theorem source_defs_val_eq_filter (v : SVal) (p : List String) :
    source_defs_val v p =
      (allNodes_val v p).filter (fun x => hasSourceKey x.1) := by
  match v with
  | .vdict d =>
    rw [source_defs_val, allNodes_val]
    exact source_defs_list_eq_filter d p
  | .vstr s => rfl
  | .vlist l => rfl
end

/-- C5 (amended): `source_defs` equals the depth-first, insertion-ordered
preorder enumeration of all catalog positions, filtered to the nodes whose
`set(...)` meets `SOURCE_KEYS` — i.e. those carrying a `collect` or a
`postcollect` key (not only the latter).  Each such position is yielded
exactly once with its root-relative path, and a yielded node's children are
still traversed. -/
theorem C5_source_defs_eq_preorder_filter (sources : List (String × SVal)) :
    source_defs sources =
      (allNodes_list sources []).filter (fun x => hasSourceKey x.1) :=
  source_defs_list_eq_filter sources []

/-- The node of the C5 counterexample: it carries `collect` but no
`postcollect`. -/
def c5node : SVal := .vdict [("collect", .vstr "x")]

/-- C5 counterexample: a node carrying only a `collect` key is *not* a
node "carrying a postcollect template list", yet `source_defs` yields it —
so the traversal does not yield exactly the defining nodes in the claim's
sense.  (The repository's own test `SourceDefsTC.test_key` asserts this
behavior for a collect-only node.) -/
theorem C5_counterexample :
    source_defs [("s", c5node)] = [(c5node, ["s"])] ∧
      carriesPostcollect c5node = false := ⟨rfl, rfl⟩

/-! ## Generic reduction lemmas for the `Except` monad -/

@[simp] theorem exceptBind_ok {ε α β : Type} (a : α) (f : α → Except ε β) :
    (Except.ok a >>= f) = f a := rfl

@[simp] theorem exceptBind_error {ε α β : Type} (e : ε)
    (f : α → Except ε β) :
    ((Except.error e : Except ε α) >>= f) = .error e := rfl

@[simp] theorem exceptMap_ok {ε α β : Type} (g : α → β) (a : α) :
    (g <$> (Except.ok a : Except ε α)) = .ok (g a) := rfl

@[simp] theorem exceptMap_error {ε α β : Type} (g : α → β) (e : ε) :
    (g <$> (Except.error e : Except ε α)) = .error e := rfl

@[simp] theorem exceptPure {ε α : Type} (a : α) :
    (pure a : Except ε α) = .ok a := rfl

/-! ## Command generation: `collect_commands` (claim C9) -/

theorem ne_mk_singleton (a : Char) (s : String) (hs : s.toList.length ≠ 1) :
    (s == String.mk [a]) = false := by
  rw [beq_eq_false_iff_ne]
  intro h
  exact hs (by rw [h]; rfl)

/-- A string value never meets `SOURCE_KEYS`: iterating it yields
one-character strings only. -/
theorem hasSourceKey_vstr (c : String) : hasSourceKey (.vstr c) = false := by
  simp only [hasSourceKey, pySetMembers, Bool.or_eq_false_iff]
  constructor <;>
  · induction c.toList with
    | nil => rfl
    | cons a t ih =>
      simp only [List.map_cons, List.contains_cons, Bool.or_eq_false_iff]
      exact ⟨ne_mk_singleton a _ (by decide), ih⟩

/-- C9: the catalog invariant "collect implies postcollect" is not
validated: a source node carrying a nonempty `collect` command but no
`postcollect` key makes `collect_commands` (with `call_postcollect`
enabled) raise an uncaught `KeyError('postcollect')` — aborting command
generation — rather than reporting a per-command or configuration
error. -/
theorem C9_collect_without_postcollect_raises (name c : String) (hc : c ≠ "")
    (opts : List String) (pa : Bool) :
    collect_commands [(name, .vdict [("collect", .vstr c)])] opts true pa =
      .error (.keyError "postcollect") := by
  have hk : hasSourceKey (.vdict [("collect", .vstr c)]) = true := by
    simp [hasSourceKey, pySetMembers]
  have hnode : source_defs [(name, .vdict [("collect", .vstr c)])] =
      [(.vdict [("collect", .vstr c)], [name])] := by
    simp [source_defs, source_defs_list, source_defs_val, hasSourceKey_vstr, hk]
  rw [collect_commands, hnode, collect_commands.go]
  simp [getCollectString, svalGet, svalIndex, hc, List.lookup]

/-- C9 witness: the abort at a concrete catalog. -/
theorem C9_witness :
    collect_commands [("s", .vdict [("collect", .vstr "x")])] [] true true =
      .error (.keyError "postcollect") :=
  C9_collect_without_postcollect_raises "s" "x" (by decide) [] true

/-! ## Environment building (claim C10) -/

/-- C10: `build_env` rewrites `config['environment']` in place — every
value is replaced by its template-expanded form, additionally joined after
the source file's directory when one is given — so the returned state
carries the rewritten overlay and a second call on the same configuration
object re-processes the already-rewritten values; `os.environ` is left
untouched (the returned environment is built from a copy). -/
theorem C10_build_env_mutates_config (st : PyState) (sf ll : Option String)
    (env1 : Env) (st1 : PyState)
    (h : build_env st sf ll = .ok (env1, st1)) :
    st1.osEnviron = st.osEnviron ∧
    st1.config.root = st.config.root ∧
    expandEnviron sf [] st.config.environment = .ok st1.config.environment ∧
    (∀ env2 st2, build_env st1 sf ll = .ok (env2, st2) →
      expandEnviron sf [] st1.config.environment =
        .ok st2.config.environment) := by
  unfold build_env at h
  cases he : expandEnviron sf [] st.config.environment with
  | error e => rw [he] at h; simp at h
  | ok fe =>
    rw [he] at h
    simp only [exceptBind_ok] at h
    injection h with h
    injection h with henv hst
    subst hst
    refine ⟨rfl, rfl, rfl, ?_⟩
    intro env2 st2 h2
    unfold build_env at h2
    simp only at h2
    cases he2 : expandEnviron sf [] fe with
    | error e => rw [he2] at h2; simp at h2
    | ok fe2 =>
      rw [he2] at h2
      simp only [exceptBind_ok] at h2
      injection h2 with h2
      injection h2 with henv2 hst2
      subst hst2
      rfl

def c10st : PyState :=
  ⟨[("PATH", "/bin")],
   ⟨"hello", [("D1", "/d1"), ("D2", "{D1}/d2"), ("D3", "relative/path")]⟩⟩

def c10st1 : PyState :=
  ⟨[("PATH", "/bin")],
   ⟨"hello", [("D1", "/d1"), ("D2", "/d1/d2"),
              ("D3", "/opt/data/relative/path")]⟩⟩

def c10env : Env :=
  [("PATH", "/bin"), ("ROOT", "/opt/data/hello"), ("D1", "/d1"),
   ("D2", "/d1/d2"), ("D3", "/opt/data/relative/path")]

/-- C10 witness: the configuration of `BuildEnvTC`, rewritten in place. -/
theorem C10_witness :
    c10st1.osEnviron = c10st.osEnviron ∧
    expandEnviron (some "/opt/data/lowatt.yml") [] c10st.config.environment =
      .ok c10st1.config.environment :=
  ⟨(C10_build_env_mutates_config c10st (some "/opt/data/lowatt.yml") none
      c10env c10st1 (by rfl)).1,
   (C10_build_env_mutates_config c10st (some "/opt/data/lowatt.yml") none
      c10env c10st1 (by rfl)).2.2.1⟩

/-! ## Helper lemmas: environment lookups, folds, the per-file loop -/

theorem lookup_append_key (k v : String) :
    ∀ (l : List (String × String)), (∀ p ∈ l, p.1 ≠ k) →
      List.lookup k (l ++ [(k, v)]) = some v := by
  intro l
  induction l with
  | nil => simp [List.lookup]
  | cons p rest ih =>
    intro hall
    have h1 : p.1 ≠ k := hall p (by simp)
    have hb : (k == p.1) = false :=
      beq_eq_false_iff_ne.mpr (fun hk => h1 hk.symm)
    simp only [List.cons_append, List.lookup, hb]
    exact ih (fun q hq => hall q (by simp [hq]))

theorem lookup_envSet (env : Env) (k v : String) :
    List.lookup k (envSet env k v) = some v := by
  unfold envSet
  apply lookup_append_key
  intro p hp
  simp only [List.mem_filter, decide_eq_true_eq] at hp
  exact hp.2

theorem lookup_envSet_ne (env : Env) (k k' v : String) (h : k' ≠ k) :
    List.lookup k' (envSet env k v) = List.lookup k' env := by
  unfold envSet
  have hk : (k' == k) = false := beq_eq_false_iff_ne.mpr h
  induction env with
  | nil => simp [List.lookup, hk]
  | cons p rest ih =>
    by_cases hp : p.1 = k
    · rw [List.filter_cons, if_neg (by simp [hp])]
      rw [ih]
      have hb : (k' == p.1) = false := by rw [hp]; exact hk
      simp [List.lookup, hb]
    · rw [List.filter_cons, if_pos (by simp [hp])]
      simp only [List.cons_append, List.lookup]
      cases hkp : k' == p.1 with
      | true => rfl
      | false => exact ih

theorem mem_foldl_addFile (l : List String) :
    ∀ (d : List String) (f : String),
      (f ∈ l.foldl addFile d) ↔ f ∈ d ∨ f ∈ l := by
  induction l with
  | nil => simp
  | cons g rest ih =>
    intro d f
    rw [List.foldl_cons, ih]
    unfold addFile
    by_cases hg : g ∈ d <;> by_cases hfg : f = g <;>
      simp [hg, hfg]

/-- Whether a staging file name is skipped as hidden. -/
def hiddenB (f : String) : Bool := strStartsWith f "."

/-- The `files` argument of the per-file `PostCollectFiles` run. -/
def pcFilesArg (pa : Bool) (tmpdir fname : String) : List String :=
  if pa then [pathJoin tmpdir fname] else []

/-- Whether the single-file postcollect run of `fname` returns a nonempty
error list (the quarantine condition of `CollectSource.run`). -/
def pcFails (W : World) (p : List String) (pa : Bool) (path : List String)
    (tmpdir : String) (env : Env) (fname : String) : Bool :=
  match Command.execute W p path tmpdir env (pcFilesArg pa tmpdir fname) with
  | .ok out => !out.errors.isEmpty
  | .error _ => true

/-- The observable outcome of the single-file postcollect run of `fname`
(meaningful whenever that run does not raise). -/
def pcOut (W : World) (p : List String) (pa : Bool) (path : List String)
    (tmpdir : String) (env : Env) (fname : String) : ExecOut :=
  match Command.execute W p path tmpdir env (pcFilesArg pa tmpdir fname) with
  | .ok out => out
  | .error _ => ⟨[], [], []⟩

/-- Full characterization of the per-file loop: the visible (non-hidden)
files are processed in order, each exactly once; destination and quarantine
receive exactly the successes resp. failures; the quarantine directory is
created only when a failure occurs; errors, spawns and logs accumulate in
file order. -/
theorem processFiles_spec (W : World) (p : List String) (pa : Bool)
    (path : List String) (tmp : String) (env : Env) :
    ∀ (staged : List String) (st st' : ProcState),
      processFiles W p pa path tmp env staged st = .ok st' →
      (let vis := staged.filter (fun f => !hiddenB f)
       let succ := vis.filter (fun f => !pcFails W p pa path tmp env f)
       let fl := vis.filter (fun f => pcFails W p pa path tmp env f)
       st'.dest = succ.foldl addFile st.dest ∧
       st'.quar = (if fl.isEmpty then st.quar
                   else some (fl.foldl addFile (st.quar.getD []))) ∧
       st'.successFiles = st.successFiles ++ succ ∧
       st'.errorFiles = st.errorFiles ++ fl ∧
       st'.pcRuns = st.pcRuns ++ vis.map (pcFilesArg pa tmp) ∧
       st'.errors = st.errors ++
         vis.flatMap (fun f => (pcOut W p pa path tmp env f).errors) ∧
       st'.spawned = st.spawned ++
         vis.flatMap (fun f => (pcOut W p pa path tmp env f).spawned) ∧
       st'.logs = st.logs ++
         vis.flatMap (fun f => (pcOut W p pa path tmp env f).logs)) := by
  intro staged
  induction staged with
  | nil =>
    intro st st' h
    rw [processFiles] at h
    injection h with h
    subst h
    simp
  | cons g rest ih =>
    intro st st' h
    rw [processFiles] at h
    by_cases hg : strStartsWith g "." = true
    · rw [if_pos hg] at h
      have := ih st st' h
      simpa [hiddenB, List.filter_cons, hg] using this
    · rw [if_neg hg] at h
      rw [Bool.not_eq_true] at hg
      cases hex : Command.execute W p path tmp env
          (if pa then [pathJoin tmp g] else []) with
      | error e =>
        simp only [hex, exceptBind_error] at h
        exact absurd h (by simp)
      | ok out =>
        simp only [hex, exceptBind_ok] at h
        have hexArg : Command.execute W p path tmp env (pcFilesArg pa tmp g) =
            .ok out := hex
        have hfail : pcFails W p pa path tmp env g = !out.errors.isEmpty := by
          rw [pcFails, hexArg]
        have hout : pcOut W p pa path tmp env g = out := by
          rw [pcOut, hexArg]
        by_cases hsucc : out.errors.isEmpty
        · rw [if_pos hsucc] at h
          have hEmpty : out.errors = [] := by simpa using hsucc
          have := ih _ _ h
          simp only at this
          obtain ⟨h1, h2, h3, h4, h5, h6, h7, h8⟩ := this
          refine ⟨?_, ?_, ?_, ?_, ?_, ?_, ?_, ?_⟩ <;>
            simp [hiddenB, List.filter_cons, hg, hfail, hsucc, h1, h2, h3,
              h4, h5, h6, h7, h8, hout, hEmpty, pcFilesArg]
        · rw [if_neg hsucc] at h
          have := ih _ _ h
          simp only at this
          obtain ⟨h1, h2, h3, h4, h5, h6, h7, h8⟩ := this
          rw [Bool.not_eq_true] at hsucc
          have hquar : st'.quar =
              (if (List.filter (fun f => pcFails W p pa path tmp env f)
                  ((g :: rest).filter (fun f => !hiddenB f))).isEmpty then st.quar
               else some ((List.filter (fun f => pcFails W p pa path tmp env f)
                  ((g :: rest).filter (fun f => !hiddenB f))).foldl addFile
                    (st.quar.getD []))) := by
            rw [h2]
            by_cases hfl : (List.filter (fun f => pcFails W p pa path tmp env f)
                (List.filter (fun f => !hiddenB f) rest)).isEmpty
            · rw [if_pos hfl]
              rw [List.isEmpty_iff] at hfl
              rw [List.filter_filter] at hfl
              simp only [hiddenB] at hfl
              simp [hiddenB, List.filter_cons, hg, hfail, hsucc, hfl,
                List.filter_filter]
            · rw [if_neg hfl]
              simp [hiddenB, List.filter_cons, hg, hfail, hsucc,
                List.filter_filter]
          refine ⟨?_, hquar, ?_, ?_, ?_, ?_, ?_, ?_⟩ <;>
            simp [hiddenB, List.filter_cons, hg, hfail, hsucc, h1, h3,
              h4, h5, h6, h7, h8, hout, pcFilesArg]

/-- Decomposition of a successful `CollectSource.run`: the collect step, the
per-file loop, and the fact that the returned error list and all file
placements come from the per-file loop state alone (the acknowledgment
step contributes neither errors nor placements). -/
theorem run_ok_decompose (W : World) (cs : CollectSource) (root : String)
    (env : Env) (tmpdir : String) (staged : List String)
    (dest0 : List String) (quar0 : Option (List String)) (out : RunOut)
    (h : CollectSource.run W cs root env tmpdir staged dest0 quar0 = .ok out) :
    ∃ co st,
      Command.execute W cs.cmds cs.path tmpdir env [] = .ok co ∧
      processFiles W cs.postcollect_cmds cs.postcollect_args cs.path tmpdir
        env staged ⟨co.errors, co.spawned, co.logs, dest0, quar0, [], [], []⟩ =
        .ok st ∧
      out.errors = st.errors ∧ out.dest = st.dest ∧ out.quar = st.quar ∧
      out.successFiles = st.successFiles ∧
      out.errorFiles = st.errorFiles ∧ out.pcRuns = st.pcRuns := by
  unfold CollectSource.run at h
  cases hco : Command.execute W cs.cmds cs.path tmpdir env [] with
  | error e =>
    simp only [hco, exceptBind_error] at h
    exact absurd h (by simp)
  | ok co =>
    simp only [hco, exceptBind_ok] at h
    cases hst : processFiles W cs.postcollect_cmds cs.postcollect_args cs.path
        tmpdir env staged
        ⟨co.errors, co.spawned, co.logs, dest0, quar0, [], [], []⟩ with
    | error e =>
      simp only [hst, exceptBind_error] at h
      exact absurd h (by simp)
    | ok st =>
      simp only [hst, exceptBind_ok] at h
      refine ⟨co, st, rfl, hst, ?_⟩
      cases hack : cs.ack_cmd with
      | none =>
        rw [hack] at h
        simp only at h
        injection h with h
        subst h
        exact ⟨rfl, rfl, rfl, rfl, rfl, rfl⟩
      | some a =>
        rw [hack] at h
        simp only at h
        by_cases ha : a = ""
        · rw [ha] at h
          simp only [ne_eq, not_true_eq_false, if_false] at h
          injection h with h
          subst h
          exact ⟨rfl, rfl, rfl, rfl, rfl, rfl⟩
        · rw [if_pos (by exact ha : a ≠ "")] at h
          cases hak : call W (ackEnv env cs.path (joinAll root cs.path) tmpdir
              st.successFiles st.errorFiles) a [] with
          | error e =>
            simp only [hak, exceptBind_error] at h
            exact absurd h (by simp)
          | ok ao =>
            simp only [hak, exceptBind_ok] at h
            injection h with h
            subst h
            exact ⟨rfl, rfl, rfl, rfl, rfl, rfl⟩

/-- The per-template formatting results of a template list (used to state
hypotheses about command lists all of whose templates format cleanly). -/
def formatAll (W : World) (env : Env) :
    List String → Except FmtError (List (List String))
  | [] => .ok []
  | c :: rest => do
    let a ← formatArgs W env c
    let as ← formatAll W env rest
    .ok (a :: as)

/-- Characterization of the `Command.execute` loop when every template
formats successfully: every template is run in declared order (a failing
entry does not abort the later ones), each spawns exactly one process, and
one error and one log line are recorded per failing entry. -/
theorem callSeq_formatAll_ok (W : World) (env : Env) (files : List String) :
    ∀ (cmds : List String) (fmts : List (List String)),
      formatAll W env cmds = .ok fmts →
      callSeq W env files cmds = .ok
        ⟨((cmds.zip fmts).filter (fun q => !W.spawn (q.2 ++ files) env)).map
            (fun q => .calledProcessError (q.2 ++ files)),
         fmts.map (fun a => a ++ files),
         ((cmds.zip fmts).filter (fun q => !W.spawn (q.2 ++ files) env)).map
            (fun q => .errorRunning q.1)⟩ := by
  intro cmds
  induction cmds with
  | nil =>
    intro fmts h
    rw [formatAll] at h
    injection h with h
    subst h
    rfl
  | cons c rest ih =>
    intro fmts h
    rw [formatAll] at h
    cases hc : formatArgs W env c with
    | error e => simp [hc] at h
    | ok a =>
      rw [hc] at h
      cases hrest : formatAll W env rest with
      | error e => simp [hrest] at h
      | ok as =>
        rw [hrest] at h
        simp only [exceptBind_ok, exceptPure] at h
        injection h with h
        subst h
        rw [callSeq]
        unfold call
        rw [hc]
        have hih := ih as hrest
        by_cases hsp : W.spawn (a ++ files) env
        · simp only [hsp, if_true, exceptBind_ok, hih]
          simp [ExecOut.append, List.zip_cons_cons, List.filter_cons, hsp]
        · simp only [hsp, if_false, exceptBind_ok, hih, Bool.false_eq_true]
          simp [ExecOut.append, List.zip_cons_cons, List.filter_cons, hsp]

/-! ## Claim C1: sequential template lists -/

/-- World of the C1/C1-witness scenario: `shlex.split` keeps the template
whole, and any process whose first argument is `"a"` exits nonzero. -/
def c1W : World := ⟨fun s => [s], fun argv _ => !(argv.headD "" == "a")⟩

/-- C1 counterexample: a command with the two templates `["a", "b"]` whose
first entry fails still spawns *both* entries (its spawn trace has length
2), refuting "executing the command runs exactly the first k entries and
does not execute entries k+1..N" for N = 2, k = 1. -/
theorem C1_counterexample :
    Command.execute c1W ["a", "b"] ["s"] "/t" [("ROOT", "/r")] [] =
      .ok ⟨[.calledProcessError ["a"]], [["a"], ["b"]],
           [.errorRunning "a"]⟩ := by rfl

/-- C1 (amended): a failing entry does not abort the remaining entries:
when every template of the list formats, executing the command spawns all
N entries in declared order, recording one error (and one log line) per
failing entry; and a (single-file) batch whose postcollect run returned
any error is still moved to quarantine as a unit. -/
theorem C1_amended :
    (∀ (W : World) (cmds path : List String) (directory : String)
       (env : Env) (files : List String) (fmts : List (List String)),
      formatAll W (init_env env path directory) cmds = .ok fmts →
      Command.execute W cmds path directory env files = .ok
        ⟨((cmds.zip fmts).filter
            (fun q => !W.spawn (q.2 ++ files) (init_env env path directory))).map
            (fun q => .calledProcessError (q.2 ++ files)),
         fmts.map (fun a => a ++ files),
         ((cmds.zip fmts).filter
            (fun q => !W.spawn (q.2 ++ files) (init_env env path directory))).map
            (fun q => .errorRunning q.1)⟩) ∧
    (∀ (W : World) (p pth : List String) (pa : Bool) (tmp : String)
       (env : Env) (g : String) (st st' : ProcState),
      hiddenB g = false →
      pcFails W p pa pth tmp env g = true →
      processFiles W p pa pth tmp env [g] st = .ok st' →
      st'.quar = some (addFile (st.quar.getD []) g) ∧ st'.dest = st.dest) := by
  constructor
  · intro W cmds path directory env files fmts h
    unfold Command.execute
    exact callSeq_formatAll_ok W (init_env env path directory) files cmds fmts h
  · intro W p pth pa tmp env g st st' hh hf hres
    have hspec := processFiles_spec W p pa pth tmp env [g] st st' hres
    simp only at hspec
    obtain ⟨h1, h2, -⟩ := hspec
    have hvis : List.filter (fun f => !hiddenB f) [g] = [g] := by simp [hh]
    rw [hvis] at h1 h2
    have hfl : List.filter (fun f => pcFails W p pa pth tmp env f) [g] = [g] := by
      simp [hf]
    have hsc : List.filter (fun f => !pcFails W p pa pth tmp env f) [g] = [] := by
      simp [hf]
    rw [hfl] at h2
    rw [hsc] at h1
    simp only [List.isEmpty_cons, List.foldl_cons, List.foldl_nil,
      Bool.false_eq_true, if_false] at h2
    simp only [List.foldl_nil] at h1
    exact ⟨h2, h1⟩

def c1st : ProcState := ⟨[], [], [], [], none, [], [], []⟩

def c1st' : ProcState :=
  ⟨[.calledProcessError ["a", "/t/f"]], [["a", "/t/f"]], [.errorRunning "a"],
   [], some ["f"], [], ["f"], [["/t/f"]]⟩

/-- C1 witness: both conjuncts of the amended claim at concrete inputs —
the two-template command runs both entries, and the failing single-file
batch goes to quarantine. -/
theorem C1_witness :
    Command.execute c1W ["a", "b"] ["s"] "/t" [("ROOT", "/r")] [] =
      .ok ⟨[.calledProcessError ["a"]], [["a"], ["b"]], [.errorRunning "a"]⟩ ∧
    (c1st'.quar = some ["f"] ∧ c1st'.dest = []) := by
  constructor
  · have := C1_amended.1 c1W ["a", "b"] ["s"] "/t" [("ROOT", "/r")] []
      [["a"], ["b"]] (by rfl)
    simpa using this
  · have := C1_amended.2 c1W ["a"] ["s"] true "/t" [("ROOT", "/r")] "f"
      c1st c1st' (by rfl) (by rfl) (by rfl)
    simpa [c1st, addFile] using this

/-! ## Claim C2: exactly-once file placement -/

/-- C2: for every non-hidden staging file of a successful
`CollectSource.run`, the file is moved to the destination listing exactly
when its single-file postcollect run returned no errors, and to the
quarantine listing exactly when it returned errors — never to both (and
the staging directory is discarded at the end of the run, so the file
never stays in staging). -/
theorem C2_file_placed_exactly_once (W : World) (cs : CollectSource)
    (root : String) (env : Env) (tmpdir : String) (staged : List String)
    (dest0 : List String) (quar0 : Option (List String)) (out : RunOut)
    (f : String)
    (hrun : CollectSource.run W cs root env tmpdir staged dest0 quar0 = .ok out)
    (hmem : f ∈ staged) (hvis : hiddenB f = false)
    (hd0 : f ∉ dest0) (hq0 : f ∉ quar0.getD []) :
    (f ∈ out.dest ↔
      pcFails W cs.postcollect_cmds cs.postcollect_args cs.path tmpdir env f
        = false) ∧
    (f ∈ out.quar.getD [] ↔
      pcFails W cs.postcollect_cmds cs.postcollect_args cs.path tmpdir env f
        = true) ∧
    ¬ (f ∈ out.dest ∧ f ∈ out.quar.getD []) := by
  obtain ⟨co, st, hco, hst, herr, hdest, hquar, hsucc, herrf, hpc⟩ :=
    run_ok_decompose W cs root env tmpdir staged dest0 quar0 out hrun
  have hspec := processFiles_spec W cs.postcollect_cmds cs.postcollect_args
    cs.path tmpdir env staged _ st hst
  simp only at hspec
  obtain ⟨h1, h2, -⟩ := hspec
  have hfv : f ∈ staged.filter (fun x => !hiddenB x) := by
    simp [List.mem_filter, hmem, hvis]
  have hDest : f ∈ out.dest ↔
      pcFails W cs.postcollect_cmds cs.postcollect_args cs.path tmpdir env f
        = false := by
    rw [hdest, h1]
    rw [mem_foldl_addFile]
    simp only [hd0, false_or]
    constructor
    · intro hin
      have := (List.mem_filter.mp hin).2
      simpa using this
    · intro hpcf
      exact List.mem_filter.mpr ⟨hfv, by simp [hpcf]⟩
  have hQuar : f ∈ out.quar.getD [] ↔
      pcFails W cs.postcollect_cmds cs.postcollect_args cs.path tmpdir env f
        = true := by
    rw [hquar, h2]
    by_cases hfl : ((staged.filter (fun x => !hiddenB x)).filter
        (fun x => pcFails W cs.postcollect_cmds cs.postcollect_args cs.path
          tmpdir env x)).isEmpty
    · rw [if_pos hfl]
      rw [List.isEmpty_iff] at hfl
      constructor
      · intro hin; exact absurd hin hq0
      · intro hpcf
        exfalso
        have : f ∈ (staged.filter (fun x => !hiddenB x)).filter
            (fun x => pcFails W cs.postcollect_cmds cs.postcollect_args
              cs.path tmpdir env x) :=
          List.mem_filter.mpr ⟨hfv, hpcf⟩
        rw [hfl] at this
        exact absurd this (List.not_mem_nil f)
    · rw [if_neg hfl]
      simp only [Option.getD_some]
      rw [mem_foldl_addFile]
      constructor
      · intro hin
        rcases hin with hin | hin
        · exact absurd hin hq0
        · exact (List.mem_filter.mp hin).2
      · intro hpcf
        exact Or.inr (List.mem_filter.mpr ⟨hfv, hpcf⟩)
  refine ⟨hDest, hQuar, ?_⟩
  intro ⟨hda, hqa⟩
  rw [hDest] at hda
  rw [hQuar] at hqa
  rw [hda] at hqa
  exact Bool.false_ne_true hqa

/-- World of the C2 witness: postcollect of `/t/f2` fails, all else
succeeds. -/
def c2W : World := ⟨fun s => [s], fun argv _ => !(argv == ["post", "/t/f2"])⟩

def c2cs : CollectSource := ⟨["collect"], ["s1"], ["post"], none, true⟩

def c2out : RunOut :=
  ⟨[.calledProcessError ["post", "/t/f2"]],
   [["collect"], ["post", "/t/f1"], ["post", "/t/f2"]],
   [.errorRunning "post"], ["f1"], some ["f2"], ["f1"], ["f2"],
   [["/t/f1"], ["/t/f2"]], []⟩

/-- C2 witness: in a run staging `f1` (postcollect succeeds) and `f2`
(postcollect fails), `f2` is quarantined and not placed in the
destination. -/
theorem C2_witness :
    ("f2" ∈ c2out.dest ↔
      pcFails c2W ["post"] true ["s1"] "/t" [("ROOT", "/r")] "f2" = false) ∧
    ("f2" ∈ c2out.quar.getD [] ↔
      pcFails c2W ["post"] true ["s1"] "/t" [("ROOT", "/r")] "f2" = true) ∧
    ¬ ("f2" ∈ c2out.dest ∧ "f2" ∈ c2out.quar.getD []) :=
  C2_file_placed_exactly_once c2W c2cs "/r" [("ROOT", "/r")] "/t"
    ["f1", "f2"] [] none c2out "f2" (by rfl) (by decide) (by rfl)
    (by decide) (by decide)

/-! ## Claim C3: the acknowledgment call -/

/-- World of the C3 scenario: the acknowledgment command `ack` fails,
everything else succeeds. -/
def c3W : World := ⟨fun s => [s], fun argv _ => !(argv.headD "" == "ack")⟩

def c3cs : CollectSource := ⟨["collect"], ["s1"], ["post"], some "ack", true⟩

def c3ackEnv : Env :=
  [("ROOT", "/r"), ("SOURCE", "s1"), ("COLLECTOR", "s1"), ("DIR", "/r/s1"),
   ("OUTPUT_DIR", "/r/s1"), ("TMPDIR", "/t"), ("SUCCESS_FILES", "file1"),
   ("ERROR_FILES", "")]

def c3out : RunOut :=
  ⟨[], [["collect"], ["post", "/t/file1"], ["ack"]], [.errorRunning "ack"],
   ["file1"], none, ["file1"], [], [["/t/file1"]], [c3ackEnv]⟩

/-- C3 counterexample: the acknowledgment command is invoked (its failure
is logged — `errorRunning "ack"` — and its process appears last in the
spawn trace), yet the run's returned error list is empty: an
acknowledgment failure does *not* appear in the command's returned error
list, because `CollectSource.run` discards the result of the
acknowledgment `_call`. -/
theorem C3_counterexample :
    CollectSource.run c3W c3cs "/r" [("ROOT", "/r")] "/t" ["file1"] [] none =
      .ok c3out ∧
    c3out.errors = [] ∧
    c3out.ackEnvs = [c3ackEnv] ∧
    c3out.logs = [.errorRunning "ack"] ∧
    c3W.spawn ["ack"] c3ackEnv = false := ⟨by rfl, rfl, rfl, rfl, by rfl⟩

/-- C3 (amended): with an acknowledgment template configured, a successful
`CollectSource.run` invokes it exactly once, after all staged files are
processed (its spawns follow the whole per-file trace), in an environment
additionally carrying TMPDIR (the staging directory) and SUCCESS_FILES /
ERROR_FILES (semicolon-joined basenames); a failure of that invocation is
logged but is *not* appended to the command's returned error list, and it
changes no file's placement (destination and quarantine are exactly those
of the per-file loop). -/
theorem C3_amended (W : World) (cs : CollectSource) (root : String)
    (env : Env) (tmpdir : String) (staged : List String)
    (dest0 : List String) (quar0 : Option (List String)) (out : RunOut)
    (a : String) (hack : cs.ack_cmd = some a) (hne : a ≠ "")
    (hrun : CollectSource.run W cs root env tmpdir staged dest0 quar0 =
      .ok out) :
    ∃ co st ao,
      Command.execute W cs.cmds cs.path tmpdir env [] = .ok co ∧
      processFiles W cs.postcollect_cmds cs.postcollect_args cs.path tmpdir
        env staged ⟨co.errors, co.spawned, co.logs, dest0, quar0, [], [], []⟩ =
        .ok st ∧
      call W (ackEnv env cs.path (joinAll root cs.path) tmpdir
          st.successFiles st.errorFiles) a [] = .ok ao ∧
      out.ackEnvs = [ackEnv env cs.path (joinAll root cs.path) tmpdir
          st.successFiles st.errorFiles] ∧
      out.spawned = st.spawned ++ ao.spawned ∧
      out.errors = st.errors ∧
      out.dest = st.dest ∧ out.quar = st.quar ∧
      List.lookup "TMPDIR"
        (ackEnv env cs.path (joinAll root cs.path) tmpdir
          st.successFiles st.errorFiles) = some tmpdir ∧
      List.lookup "SUCCESS_FILES"
        (ackEnv env cs.path (joinAll root cs.path) tmpdir
          st.successFiles st.errorFiles) =
        some (String.intercalate ";" st.successFiles) ∧
      List.lookup "ERROR_FILES"
        (ackEnv env cs.path (joinAll root cs.path) tmpdir
          st.successFiles st.errorFiles) =
        some (String.intercalate ";" st.errorFiles) := by
  unfold CollectSource.run at hrun
  cases hco : Command.execute W cs.cmds cs.path tmpdir env [] with
  | error e =>
    simp only [hco, exceptBind_error] at hrun
    exact absurd hrun (by simp)
  | ok co =>
    simp only [hco, exceptBind_ok] at hrun
    cases hst : processFiles W cs.postcollect_cmds cs.postcollect_args cs.path
        tmpdir env staged
        ⟨co.errors, co.spawned, co.logs, dest0, quar0, [], [], []⟩ with
    | error e =>
      simp only [hst, exceptBind_error] at hrun
      exact absurd hrun (by simp)
    | ok st =>
      simp only [hst, exceptBind_ok] at hrun
      rw [hack] at hrun
      simp only at hrun
      rw [if_pos hne] at hrun
      cases hak : call W (ackEnv env cs.path (joinAll root cs.path) tmpdir
          st.successFiles st.errorFiles) a [] with
      | error e =>
        simp only [hak, exceptBind_error] at hrun
        exact absurd hrun (by simp)
      | ok ao =>
        simp only [hak, exceptBind_ok] at hrun
        injection hrun with hrun
        subst hrun
        refine ⟨co, st, ao, rfl, hst, hak, rfl, rfl, rfl, rfl, rfl, ?_, ?_, ?_⟩
        · unfold ackEnv
          rw [lookup_envSet_ne _ _ _ _ (by decide),
            lookup_envSet_ne _ _ _ _ (by decide), lookup_envSet]
        · unfold ackEnv
          rw [lookup_envSet_ne _ _ _ _ (by decide), lookup_envSet]
        · unfold ackEnv
          rw [lookup_envSet]

/-- C3 witness: the amended claim at the concrete C3 scenario — TMPDIR and
the semicolon-joined file lists are present in the acknowledgment
environment, and the returned error list equals the per-file loop's. -/
theorem C3_witness :
    c3out.errors = [] ∧
    List.lookup "TMPDIR" c3ackEnv = some "/t" ∧
    List.lookup "SUCCESS_FILES" c3ackEnv = some "file1" ∧
    List.lookup "ERROR_FILES" c3ackEnv = some "" := by
  obtain ⟨co, st, ao, hco, hst, hak, hackE, hsp, herr, hdest, hquar,
      htmp, hsf, hef⟩ :=
    C3_amended c3W c3cs "/r" [("ROOT", "/r")] "/t" ["file1"] [] none c3out
      "ack" (by rfl) (by decide) (by rfl)
  have h2 : Command.execute c3W c3cs.cmds c3cs.path "/t" [("ROOT", "/r")] [] =
      .ok (⟨[], [["collect"]], []⟩ : ExecOut) := by rfl
  have hcoeq : co = ⟨[], [["collect"]], []⟩ := by
    have h := h2.symm.trans hco
    injection h with h
    exact h.symm
  subst hcoeq
  have h3 : processFiles c3W c3cs.postcollect_cmds c3cs.postcollect_args
      c3cs.path "/t" [("ROOT", "/r")] ["file1"]
      ⟨(⟨[], [["collect"]], []⟩ : ExecOut).errors,
       (⟨[], [["collect"]], []⟩ : ExecOut).spawned,
       (⟨[], [["collect"]], []⟩ : ExecOut).logs, [], none, [], [], []⟩ =
      .ok ⟨[], [["collect"], ["post", "/t/file1"]], [], ["file1"], none,
        ["file1"], [], [["/t/file1"]]⟩ := by rfl
  have hsteq : st = ⟨[], [["collect"], ["post", "/t/file1"]], [], ["file1"],
      none, ["file1"], [], [["/t/file1"]]⟩ := by
    have h := h3.symm.trans hst
    injection h with h
    exact h.symm
  subst hsteq
  exact ⟨herr, htmp, hsf, hef⟩

/-! ## Claim C6: unknown environment variable in a template -/

theorem ExecOut.append_assoc (a b c : ExecOut) :
    (a.append b).append c = a.append (b.append c) := by
  simp [ExecOut.append]

theorem ExecOut.nil_append (a : ExecOut) :
    (⟨[], [], []⟩ : ExecOut).append a = a := by
  simp [ExecOut.append]

theorem executeAgg_append (xs ys : List (Except FmtError ExecOut)) :
    executeAgg (xs ++ ys) = (executeAgg xs).append (executeAgg ys) := by
  induction xs with
  | nil =>
    rw [List.nil_append]
    exact (ExecOut.nil_append (executeAgg ys)).symm
  | cons r rest ih =>
    cases r <;>
      simp [executeAgg, ih, ExecOut.append_assoc]

/-- C6: a template one of whose tokens references a variable absent from
the environment makes `_call` record exactly one error, log the sorted
list of available variable names, and spawn no process; within the
execution engine's aggregation this contributes exactly that one error and
leaves every sibling command's contribution unchanged (the run is not
aborted). -/
theorem C6_unknown_variable (W : World) (env : Env) (c : String)
    (files : List String) (v : String)
    (h : formatArgs W env c = .error (.keyError v)) :
    call W env c files =
      .ok ⟨[.keyError v], [], [.unknownEnvVar c (sortedKeys env)]⟩ ∧
    (∀ (pre post : List (Except FmtError ExecOut)),
      executeAgg (pre ++ [call W env c files] ++ post) =
        ⟨(executeAgg pre).errors ++ [.keyError v] ++
           (executeAgg post).errors,
         (executeAgg pre).spawned ++ (executeAgg post).spawned,
         (executeAgg pre).logs ++ [.unknownEnvVar c (sortedKeys env)] ++
           (executeAgg post).logs⟩) := by
  have hcall : call W env c files =
      .ok ⟨[.keyError v], [], [.unknownEnvVar c (sortedKeys env)]⟩ := by
    unfold call
    rw [h]
  refine ⟨hcall, ?_⟩
  intro pre post
  rw [executeAgg_append, executeAgg_append, hcall]
  rw [show executeAgg [.ok ⟨[.keyError v], [],
      [.unknownEnvVar c (sortedKeys env)]⟩] =
    ⟨[.keyError v], [], [.unknownEnvVar c (sortedKeys env)]⟩ from by
      simp [executeAgg, ExecOut.append]]
  simp [ExecOut.append]

def c6W : World := ⟨fun s => [s], fun _ _ => true⟩

/-- C6 witness: the template `{B}` against an environment binding only `A`
records one `KeyError`, spawns nothing, and leaves a sibling's successful
spawn in place. -/
theorem C6_witness :
    call c6W [("A", "1")] "{B}" [] =
      .ok ⟨[.keyError "B"], [], [.unknownEnvVar "{B}" ["A"]]⟩ ∧
    executeAgg [.ok ⟨[], [["x"]], []⟩, call c6W [("A", "1")] "{B}" []] =
      ⟨[.keyError "B"], [["x"]], [.unknownEnvVar "{B}" ["A"]]⟩ := by
  have hmain := C6_unknown_variable c6W [("A", "1")] "{B}" [] "B" (by rfl)
  constructor
  · have h1 := hmain.1
    simpa [sortedKeys] using h1
  · have h2 := hmain.2 [.ok ⟨[], [["x"]], []⟩] []
    simp only [List.append_nil] at h2
    rw [show ([Except.ok (⟨[], [["x"]], []⟩ : ExecOut)] ++
        [call c6W [("A", "1")] "{B}" []]) =
      [Except.ok (⟨[], [["x"]], []⟩ : ExecOut),
       call c6W [("A", "1")] "{B}" []] from rfl] at h2
    rw [h2]
    simp [executeAgg, ExecOut.append, sortedKeys]

/-! ## Claim C7: batching per directory vs per file -/

mutual
/-- Well-formed directory entry names: nonempty and relative (as
`os.listdir` returns them). -/
def wfNamesDir : FSDir → Prop
  | .node l => wfNamesEntries l
termination_by d => sizeOf d
decreasing_by all_goals simp_wf

def wfNamesEntries : List (String × Option FSDir) → Prop
  | [] => True
  | (n, e) :: rest =>
    (n.toList ≠ [] ∧ strStartsWith n "/" = false ∧
      (match e with
       | some sub => wfNamesDir sub
       | none => True)) ∧ wfNamesEntries rest
termination_by l => sizeOf l
decreasing_by all_goals (simp_wf) <;> omega
end

theorem pathJoin_longer (D n : String) (h1 : n.toList ≠ [])
    (h2 : strStartsWith n "/" = false) :
    D.toList.length < (pathJoin D n).toList.length := by
  unfold pathJoin
  rw [h2]
  simp only [Bool.false_eq_true, if_false]
  have hn : 0 < n.toList.length := List.length_pos.mpr h1
  by_cases hD : D = ""
  · subst hD
    simpa using hn
  · rw [if_neg hD]
    by_cases hsl : strEndsWith D "/"
    · rw [if_pos hsl]
      rw [show (D ++ n).toList = D.toList ++ n.toList from rfl]
      simp only [List.length_append]
      omega
    · rw [if_neg hsl]
      rw [show (D ++ "/" ++ n).toList = D.toList ++ "/".toList ++ n.toList
        from rfl]
      simp only [List.length_append]
      omega

/-- Every batch yielded by the directory walk below `dirpath` carries a
directory string at least as long as `dirpath` — strictly longer for the
batches of subdirectories.  (Strong induction on the tree size.) -/
theorem pcc_longer :
    ∀ (n : Nat),
      (∀ (d : FSDir), sizeOf d ≤ n →
        ∀ (dirpath : String) (src : SVal) (path : List String) (pa : Bool)
          (res : List PostCollectFiles × List LogMsg),
          pcc_dir dirpath src path pa d = .ok res → wfNamesDir d →
          ∀ b ∈ res.1, b.directory = dirpath ∨
            dirpath.toList.length < b.directory.toList.length) ∧
      (∀ (l : List (String × Option FSDir)), sizeOf l ≤ n →
        ∀ (dirpath : String) (src : SVal) (path : List String) (pa : Bool)
          (res' : List PostCollectFiles × List LogMsg × List String),
          pcc_entries dirpath src path pa l = .ok res' → wfNamesEntries l →
          ∀ b ∈ res'.1,
            dirpath.toList.length < b.directory.toList.length) := by
  intro n
  induction n with
  | zero =>
    constructor
    · intro d hd
      exfalso
      cases d with
      | node l => simp at hd
    · intro l hl
      exfalso
      cases l with
      | nil => simp at hl
      | cons a t => simp at hl
  | succ n ihn =>
    constructor
    · intro d hd dirpath src path pa res h hwf
      cases d with
      | node l =>
        have hwfe : wfNamesEntries l := by
          rw [wfNamesDir.eq_def] at hwf
          exact hwf
        have hszl : sizeOf l ≤ n := by
          have : sizeOf (FSDir.node l) = 1 + sizeOf l := by simp
          omega
        intro b hb
        rw [pcc_dir.eq_def] at h
        simp only at h
        cases hres0 : pcc_entries dirpath src path pa l with
        | error e =>
          simp only [hres0, exceptBind_error] at h
          exact absurd h (by simp)
        | ok res0 =>
          obtain ⟨sub0, logs0, fs0⟩ := res0
          simp only [hres0, exceptBind_ok] at h
          by_cases hfs : fs0.isEmpty
          · rw [if_pos hfs] at h
            injection h with h
            subst h
            exact Or.inr (ihn.2 l hszl dirpath src path pa (sub0, logs0, fs0)
              hres0 hwfe b hb)
          · rw [if_neg hfs] at h
            cases hpcv : svalIndex src "postcollect" with
            | error e =>
              simp only [hpcv, exceptBind_error] at h
              exact absurd h (by simp)
            | ok pcv =>
              simp only [hpcv, exceptBind_ok] at h
              injection h with h
              subst h
              simp only [List.mem_append, List.mem_singleton] at hb
              rcases hb with hb | hb
              · exact Or.inr (ihn.2 l hszl dirpath src path pa
                  (sub0, logs0, fs0) hres0 hwfe b hb)
              · subst hb
                exact Or.inl rfl
    · intro l hl dirpath src path pa res' h' hwf'
      cases l with
      | nil =>
        intro b hb
        rw [pcc_entries.eq_def] at h'
        simp only at h'
        injection h' with h'
        subst h'
        simp at hb
      | cons ent rest =>
        obtain ⟨fname, eo⟩ := ent
        intro b hb
        rw [pcc_entries.eq_def] at h'
        simp only at h'
        rw [wfNamesEntries.eq_def] at hwf'
        obtain ⟨⟨hn1, hn2, hsub⟩, hwrest⟩ := hwf'
        have hszrest : sizeOf rest ≤ n := by
          simp at hl
          omega
        cases eo with
        | some sub =>
          simp only at h'
          by_cases hin : pyIn fname src
          · rw [if_pos hin] at h'
            cases hsi : svalIndex src fname with
            | error e =>
              simp only [hsi, exceptBind_error] at h'
              exact absurd h' (by simp)
            | ok subSrc =>
              simp only [hsi, exceptBind_ok] at h'
              cases hdsub : pcc_dir (pathJoin dirpath fname) subSrc
                  (path ++ [fname]) pa sub with
              | error e =>
                simp only [hdsub, exceptBind_error] at h'
                exact absurd h' (by simp)
              | ok res1 =>
                obtain ⟨b1, l1⟩ := res1
                simp only [hdsub, exceptBind_ok] at h'
                cases hrest : pcc_entries dirpath src path pa rest with
                | error e =>
                  simp only [hrest, exceptBind_error] at h'
                  exact absurd h' (by simp)
                | ok res2 =>
                  obtain ⟨b2, l2, fs⟩ := res2
                  simp only [hrest, exceptBind_ok] at h'
                  injection h' with h'
                  subst h'
                  simp only [List.mem_append] at hb
                  rcases hb with hb | hb
                  · have hsubsz : sizeOf sub ≤ n := by
                      simp at hl
                      omega
                    have hsubwf : wfNamesDir sub := hsub
                    have hrec := ihn.1 sub hsubsz (pathJoin dirpath fname)
                      subSrc (path ++ [fname]) pa (b1, l1) hdsub hsubwf b hb
                    have hlong := pathJoin_longer dirpath fname hn1 hn2
                    rcases hrec with heq | hlt
                    · rw [heq]; omega
                    · omega
                  · exact ihn.2 rest hszrest dirpath src path pa
                      (b2, l2, fs) hrest hwrest b hb
          · rw [if_neg hin] at h'
            cases hrest : pcc_entries dirpath src path pa rest with
            | error e =>
              simp only [hrest, exceptBind_error] at h'
              exact absurd h' (by simp)
            | ok res2 =>
              obtain ⟨b2, l2, fs⟩ := res2
              simp only [hrest, exceptBind_ok] at h'
              injection h' with h'
              subst h'
              exact ihn.2 rest hszrest dirpath src path pa (b2, l2, fs)
                hrest hwrest b hb
        | none =>
          simp only at h'
          cases hrest : pcc_entries dirpath src path pa rest with
          | error e =>
            by_cases hin : pyIn "postcollect" src <;>
              [rw [if_pos hin] at h'; rw [if_neg hin] at h'] <;>
              simp only [hrest, exceptBind_error] at h' <;>
              exact absurd h' (by simp)
          | ok res2 =>
            obtain ⟨b2, l2, fs⟩ := res2
            by_cases hin : pyIn "postcollect" src
            · rw [if_pos hin] at h'
              simp only [hrest, exceptBind_ok] at h'
              injection h' with h'
              subst h'
              exact ihn.2 rest hszrest dirpath src path pa (b2, l2, fs)
                hrest hwrest b hb
            · rw [if_neg hin] at h'
              simp only [hrest, exceptBind_ok] at h'
              injection h' with h'
              subst h'
              exact ihn.2 rest hszrest dirpath src path pa (b2, l2, fs)
                hrest hwrest b hb

/-- When the sources node carries `postcollect`, the file accumulator of
one directory level holds exactly the joined names of its non-directory
entries, in listing order. -/
theorem pcc_entries_files (dirpath : String) (src : SVal)
    (path : List String) (pa : Bool) (hpc : pyIn "postcollect" src = true) :
    ∀ (l : List (String × Option FSDir))
      (res : List PostCollectFiles × List LogMsg × List String),
      pcc_entries dirpath src path pa l = .ok res →
      res.2.2 = (l.filter (fun e => e.2.isNone)).map
        (fun e => pathJoin dirpath e.1) := by
  intro l
  induction l with
  | nil =>
    intro res h
    rw [pcc_entries.eq_def] at h
    simp only at h
    injection h with h
    subst h
    rfl
  | cons ent rest ih =>
    obtain ⟨fname, eo⟩ := ent
    intro res h
    rw [pcc_entries.eq_def] at h
    simp only at h
    cases eo with
    | some sub =>
      simp only at h
      by_cases hin : pyIn fname src
      · rw [if_pos hin] at h
        cases hsi : svalIndex src fname with
        | error e =>
          simp only [hsi, exceptBind_error] at h
          exact absurd h (by simp)
        | ok subSrc =>
          simp only [hsi, exceptBind_ok] at h
          cases hdsub : pcc_dir (pathJoin dirpath fname) subSrc
              (path ++ [fname]) pa sub with
          | error e =>
            simp only [hdsub, exceptBind_error] at h
            exact absurd h (by simp)
          | ok res1 =>
            obtain ⟨b1, l1⟩ := res1
            simp only [hdsub, exceptBind_ok] at h
            cases hrest : pcc_entries dirpath src path pa rest with
            | error e =>
              simp only [hrest, exceptBind_error] at h
              exact absurd h (by simp)
            | ok res2 =>
              obtain ⟨b2, l2, fs⟩ := res2
              simp only [hrest, exceptBind_ok] at h
              injection h with h
              subst h
              simpa [List.filter_cons] using ih (b2, l2, fs) hrest
      · rw [if_neg hin] at h
        cases hrest : pcc_entries dirpath src path pa rest with
        | error e =>
          simp only [hrest, exceptBind_error] at h
          exact absurd h (by simp)
        | ok res2 =>
          obtain ⟨b2, l2, fs⟩ := res2
          simp only [hrest, exceptBind_ok] at h
          injection h with h
          subst h
          simpa [List.filter_cons] using ih (b2, l2, fs) hrest
    | none =>
      simp only at h
      rw [if_pos hpc] at h
      cases hrest : pcc_entries dirpath src path pa rest with
      | error e =>
        simp only [hrest, exceptBind_error] at h
        exact absurd h (by simp)
      | ok res2 =>
        obtain ⟨b2, l2, fs⟩ := res2
        simp only [hrest, exceptBind_ok] at h
        injection h with h
        subst h
        simpa [List.filter_cons] using ih (b2, l2, fs) hrest

/-- C7: directory-scan postcollect groups all regular files directly
inside a matched directory into exactly one `PostCollectFiles` batch for
that directory (batches of subdirectories are separate, and the batch
carries the node's whole template list, so there is one invocation per
template, not one per file); collect-driven postcollect instead issues
exactly one single-file `PostCollectFiles` run per non-hidden staged file
(M files yield M runs). -/
theorem C7_batching :
    (∀ (dirpath : String) (src : SVal) (path : List String) (pa : Bool)
       (d : FSDir) (batches : List PostCollectFiles) (logs : List LogMsg),
      wfNamesDir d → pyIn "postcollect" src = true →
      pcc_dir dirpath src path pa d = .ok (batches, logs) →
      (batches.countP (fun b => b.directory == dirpath) =
        if (d.entries.filter (fun e => e.2.isNone)).isEmpty then 0 else 1) ∧
      (∀ b ∈ batches, b.directory = dirpath →
        b.files = (if pa then (d.entries.filter (fun e => e.2.isNone)).map
            (fun e => pathJoin dirpath e.1) else []) ∧
        b.path = path ∧
        ∃ pcv, svalIndex src "postcollect" = .ok pcv ∧
          b.cmds = asCmdList pcv)) ∧
    (∀ (W : World) (cs : CollectSource) (root : String) (env : Env)
       (tmpdir : String) (staged : List String) (dest0 : List String)
       (quar0 : Option (List String)) (out : RunOut),
      cs.postcollect_args = true →
      CollectSource.run W cs root env tmpdir staged dest0 quar0 = .ok out →
      out.pcRuns = (staged.filter (fun f => !hiddenB f)).map
        (fun f => [pathJoin tmpdir f]) ∧
      out.pcRuns.length = (staged.filter (fun f => !hiddenB f)).length) := by
  constructor
  · intro dirpath src path pa d batches logs hwf hpc h
    cases d with
    | node l =>
      have hwfe : wfNamesEntries l := by
        rw [wfNamesDir.eq_def] at hwf
        exact hwf
      rw [pcc_dir.eq_def] at h
      simp only at h
      cases hres0 : pcc_entries dirpath src path pa l with
      | error e =>
        simp only [hres0, exceptBind_error] at h
        exact absurd h (by simp)
      | ok res0 =>
        obtain ⟨sub0, logs0, fs0⟩ := res0
        simp only [hres0, exceptBind_ok] at h
        have hsub0 : ∀ b ∈ sub0,
            dirpath.toList.length < b.directory.toList.length :=
          (pcc_longer (sizeOf l)).2 l (le_refl _) dirpath src path pa
            (sub0, logs0, fs0) hres0 hwfe
        have hsub0ne : ∀ b ∈ sub0, ¬ (b.directory == dirpath) = true := by
          intro b hb hbeq
          have := hsub0 b hb
          rw [beq_iff_eq] at hbeq
      
          rw [hbeq] at this
          omega
        have hcount0 : sub0.countP (fun b => b.directory == dirpath) = 0 :=
          List.countP_eq_zero.mpr hsub0ne
        have hfs : fs0 = (l.filter (fun e => e.2.isNone)).map
            (fun e => pathJoin dirpath e.1) :=
          pcc_entries_files dirpath src path pa hpc l (sub0, logs0, fs0) hres0
        by_cases hfse : fs0.isEmpty
        · rw [if_pos hfse] at h
          injection h with h
          injection h with hb hl
          subst hb
          have hfilter : (l.filter (fun e => e.2.isNone)) = [] := by
            rw [List.isEmpty_iff] at hfse
            rw [hfse] at hfs
            exact (List.map_eq_nil_iff.mp hfs.symm)
          constructor
          · rw [hcount0, show (FSDir.node l).entries = l from rfl, hfilter]
            simp
          · intro b hb hbd
            exfalso
            have := hsub0 b hb
            rw [hbd] at this
            omega
        · rw [if_neg hfse] at h
          cases hpcv : svalIndex src "postcollect" with
          | error e =>
            simp only [hpcv, exceptBind_error] at h
            exact absurd h (by simp)
          | ok pcv =>
            simp only [hpcv, exceptBind_ok] at h
            injection h with h
            injection h with hb hl
            subst hb
            have hfilterne : ¬ (l.filter (fun e => e.2.isNone)).isEmpty := by
              intro hc
              rw [List.isEmpty_iff] at hc
              rw [hc] at hfs
              simp at hfs
              rw [List.isEmpty_iff] at hfse
              exact hfse hfs
            constructor
            · rw [List.countP_append, hcount0,
                show (FSDir.node l).entries = l from rfl]
              rw [if_neg hfilterne]
              simp [List.countP_cons]
            · intro b hb hbd
              simp only [List.mem_append, List.mem_singleton] at hb
              rcases hb with hb | hb
              · exfalso
                have := hsub0 b hb
                rw [hbd] at this
                omega
              · subst hb
                refine ⟨?_, rfl, pcv, rfl, rfl⟩
                rw [show (FSDir.node l).entries = l from rfl, ← hfs]
  · intro W cs root env tmpdir staged dest0 quar0 out hpa hrun
    obtain ⟨co, st, hco, hst, herr, hdest, hquar, hsucc, herrf, hpc⟩ :=
      run_ok_decompose W cs root env tmpdir staged dest0 quar0 out hrun
    have hspec := processFiles_spec W cs.postcollect_cmds cs.postcollect_args
      cs.path tmpdir env staged _ st hst
    simp only at hspec
    obtain ⟨-, -, -, -, h5, -⟩ := hspec
    have hruns : out.pcRuns = (staged.filter (fun f => !hiddenB f)).map
        (fun f => [pathJoin tmpdir f]) := by
      rw [hpc, h5]
      simp only [List.nil_append]
      apply List.map_congr_left
      intro f _
      rw [pcFilesArg, hpa]
      simp
    exact ⟨hruns, by rw [hruns, List.length_map]⟩

def c7tree : FSDir := .node [("f1", none), ("f2", none)]

def c7src : SVal := .vdict [("postcollect", .vstr "p")]

def c7batch : PostCollectFiles :=
  ⟨["p"], ["s1"], "/data", ["/data/f1", "/data/f2"]⟩

/-- C7 witness: a directory with two files yields one batch holding both,
and a collect run staging two files issues two single-file postcollect
runs. -/
theorem C7_witness :
    [c7batch].countP (fun b => b.directory == "/data") = 1 ∧
    c7batch.files = ["/data/f1", "/data/f2"] ∧
    c2out.pcRuns = [["/t/f1"], ["/t/f2"]] ∧ c2out.pcRuns.length = 2 := by
  have h1 := C7_batching.1 "/data" c7src ["s1"] true c7tree [c7batch] []
    (by simp [c7tree, wfNamesDir, wfNamesEntries, strStartsWith]
        exact ⟨by decide, by decide⟩)
    (by rfl)
    (by simp only [c7tree, c7src, c7batch, pcc_dir, pcc_entries]; rfl)
  have h2 := C7_batching.2 c2W c2cs "/r" [("ROOT", "/r")] "/t" ["f1", "f2"]
    [] none c2out (by rfl) (by rfl)
  refine ⟨by simpa using h1.1, ?_, by simpa using h2.1, by simpa using h2.2⟩
  have h3 := h1.2 c7batch (by simp) (by rfl)
  simpa using h3.1

/-! ## Claim C8: two-pass interpretation of explicit postcollect entries -/

/-- C8: each entry of `files_postcollect_commands` is first interpreted as
a dotted source path into the catalog — on success the entry covers all
files currently present under that source's destination directory — and
only if that lookup raises `KeyError` is it interpreted as a literal
filesystem path: an absolute path not under root is logged and dropped; a
path whose containing directory resolves to no catalog source is logged
and dropped; otherwise the single file is recorded for the owning source.
An entry resolving to a source without a postcollect template is likewise
logged and dropped. -/
theorem C8_two_pass_interpretation (fs : FS) (sources : SVal) (root : String)
    (st : FpcState) (fpath : String) :
    (∀ key node cache1 pv,
      source_for_path sources st.cache (strSplitOnChar '.' fpath) =
        .ok (key, node, cache1) →
      svalGet node "postcollect" = .ok (some pv) → truthy (some pv) = true →
      processEntry fs sources root st fpath = .ok
        { st with
          cache := cache1,
          filesBySource := dictAppend st.filesBySource key
            (sourceDirFiles fs (joinAll root (strSplitOnChar '.' fpath))) }) ∧
    (∀ e,
      source_for_path sources st.cache (strSplitOnChar '.' fpath) =
        .error (.keyError e) →
      strStartsWith (abspath fs fpath) root = false →
      processEntry fs sources root st fpath = .ok
        { st with logs := st.logs ++
            [.fileNotUnderRoot (abspath fs fpath) root] }) ∧
    (∀ e e2,
      source_for_path sources st.cache (strSplitOnChar '.' fpath) =
        .error (.keyError e) →
      strStartsWith (abspath fs fpath) root = true →
      source_for_path sources st.cache
        ((strSplitOnChar '/'
            (relpath (dirname (abspath fs fpath)) root)).filter (· ≠ "")) =
        .error (.keyError e2) →
      processEntry fs sources root st fpath = .ok
        { st with logs := st.logs ++
            [.cantFindSource (abspath fs fpath)] }) ∧
    (∀ e key node cache1 pv,
      source_for_path sources st.cache (strSplitOnChar '.' fpath) =
        .error (.keyError e) →
      strStartsWith (abspath fs fpath) root = true →
      source_for_path sources st.cache
        ((strSplitOnChar '/'
            (relpath (dirname (abspath fs fpath)) root)).filter (· ≠ "")) =
        .ok (key, node, cache1) →
      svalGet node "postcollect" = .ok (some pv) → truthy (some pv) = true →
      processEntry fs sources root st fpath = .ok
        { st with
          cache := cache1,
          filesBySource := dictAppend st.filesBySource key
            [abspath fs fpath] }) ∧
    (∀ key node cache1,
      source_for_path sources st.cache (strSplitOnChar '.' fpath) =
        .ok (key, node, cache1) →
      svalGet node "postcollect" = .ok none →
      processEntry fs sources root st fpath = .ok
        { st with
          cache := cache1,
          logs := st.logs ++ [.sourceHasNoPostcollect key fpath] }) := by
  refine ⟨?_, ?_, ?_, ?_, ?_⟩
  · intro key node cache1 pv h1 h2 h3
    unfold processEntry
    simp only [h1, h2, exceptBind_ok, h3, if_true]
  · intro e h1 h2
    unfold processEntry
    simp only [h1, h2, Bool.not_false, if_true]
  · intro e e2 h1 h2 h3
    unfold processEntry
    simp only [h1, h2, h3, Bool.not_true, Bool.false_eq_true, if_false]
  · intro e key node cache1 pv h1 h2 h3 h4 h5
    unfold processEntry
    simp only [h1, h2, h3, h4, h5, Bool.not_true, Bool.false_eq_true,
      if_false, exceptBind_ok, if_true]
  · intro key node cache1 h1 h2
    unfold processEntry
    simp only [h1, h2, exceptBind_ok]

def c8FS : FS :=
  ⟨fun d => if d = "/r/a" then ["f1"] else [], fun _ => false, "/cwd"⟩

def c8node : SVal := .vdict [("postcollect", .vstr "p")]

def c8srcs : SVal := .vdict [("a", c8node)]

/-- C8 witness: the entry `a` resolves as a dotted source path and covers
the file listed under `/r/a`; the entry `/x/f9` fails the dotted lookup
and, lying outside root, is logged and dropped. -/
theorem C8_witness :
    processEntry c8FS c8srcs "/r" ⟨[], [], []⟩ "a" =
      .ok ⟨[("a", c8node)], [("a", ["/r/a/f1"])], []⟩ ∧
    processEntry c8FS c8srcs "/r" ⟨[], [], []⟩ "/x/f9" =
      .ok ⟨[], [], [.fileNotUnderRoot "/x/f9" "/r"]⟩ := by
  constructor
  · have h := (C8_two_pass_interpretation c8FS c8srcs "/r" ⟨[], [], []⟩
        "a").1 "a" c8node [("a", c8node)] (.vstr "p")
      (by rfl) (by rfl) (by rfl)
    exact h
  · have h := (C8_two_pass_interpretation c8FS c8srcs "/r" ⟨[], [], []⟩
        "/x/f9").2.1 "/x/f9" (by rfl) (by rfl)
    exact h

/-! ## Claim C4: merging of entries resolving to the same source -/

/-- C4 counterexample: the same dotted source entry given twice produces a
single batch whose file list contains the same path twice — the files of
merged entries are concatenated, not deduplicated. -/
theorem C4_counterexample :
    files_postcollect_commands c8FS ["a", "a"] [("a", c8node)] "/r" =
      .ok ([⟨["p"], ["a"], "/r/a", ["/r/a/f1", "/r/a/f1"]⟩], []) ∧
    ¬ (["/r/a/f1", "/r/a/f1"] : List String).Nodup :=
  ⟨by rfl, by decide⟩

def joinChar (c : Char) : List (List Char) → List Char
  | [] => []
  | [x] => x
  | x :: rest => x ++ c :: joinChar c rest

theorem splitOnChar_ne_nil (c : Char) (l : List Char) :
    splitOnChar c l ≠ [] := by
  cases l with
  | nil => simp [splitOnChar]
  | cons x rest =>
    rw [splitOnChar]
    by_cases hx : x = c
    · simp [hx]
    · simp only [hx, if_false]
      cases splitOnChar c rest with
      | nil => simp
      | cons h t => simp

theorem joinChar_splitOnChar (c : Char) (l : List Char) :
    joinChar c (splitOnChar c l) = l := by
  induction l with
  | nil => rfl
  | cons x rest ih =>
    rw [splitOnChar]
    by_cases hx : x = c
    · rw [if_pos hx]
      subst hx
      cases hsp : splitOnChar x rest with
      | nil => exact absurd hsp (splitOnChar_ne_nil x rest)
      | cons h t =>
        rw [hsp] at ih
        rw [show joinChar x ([] :: h :: t) = [] ++ x :: joinChar x (h :: t)
          from rfl]
        rw [ih]
        rfl
    · rw [if_neg hx]
      cases hsp : splitOnChar c rest with
      | nil => exact absurd hsp (splitOnChar_ne_nil c rest)
      | cons h t =>
        rw [hsp] at ih
        cases t with
        | nil =>
          rw [show joinChar c [x :: h] = x :: h from rfl]
          rw [show joinChar c [h] = h from rfl] at ih
          rw [ih]
        | cons h2 t2 =>
          rw [show joinChar c ((x :: h) :: h2 :: t2) =
            (x :: h) ++ c :: joinChar c (h2 :: t2) from rfl]
          rw [show joinChar c (h :: h2 :: t2) =
            h ++ c :: joinChar c (h2 :: t2) from rfl] at ih
          rw [← ih]
          rfl

theorem strSplitOnChar_injective (c : Char) :
    Function.Injective (strSplitOnChar c) := by
  intro a b hab
  unfold strSplitOnChar at hab
  have h2 : splitOnChar c a.toList = splitOnChar c b.toList := by
    have hinj : Function.Injective (String.mk) := fun x y hxy => by
      injection hxy
    exact List.map_injective_iff.mpr hinj hab
  have h3 := congrArg (joinChar c) h2
  rw [joinChar_splitOnChar, joinChar_splitOnChar] at h3
  exact congrArg String.mk h3

theorem dictAppend_fst (k : String) (v : List String) :
    ∀ d : List (String × List String),
      (dictAppend d k v).map Prod.fst =
        if k ∈ d.map Prod.fst then d.map Prod.fst
        else d.map Prod.fst ++ [k] := by
  intro d
  induction d with
  | nil => simp [dictAppend]
  | cons p rest ih =>
    obtain ⟨k', xs⟩ := p
    rw [dictAppend]
    by_cases hk : k' = k
    · subst hk
      simp
    · rw [if_neg hk]
      simp only [List.map_cons]
      rw [ih]
      by_cases hmem : k ∈ rest.map Prod.fst
      · rw [if_pos hmem, if_pos (by simp [hmem])]
      · have hnc : k ∉ (k' :: rest.map Prod.fst) := by
          simp only [List.mem_cons]
          rintro (hc | hc)
          · exact hk hc.symm
          · exact hmem hc
        rw [if_neg hmem, if_neg hnc]
        simp

theorem dictAppend_nodup (k : String) (v : List String)
    (d : List (String × List String)) (hd : (d.map Prod.fst).Nodup) :
    ((dictAppend d k v).map Prod.fst).Nodup := by
  rw [dictAppend_fst]
  by_cases hmem : k ∈ d.map Prod.fst
  · simpa [hmem] using hd
  · simp only [hmem, if_false]
    rw [List.nodup_append]
    refine ⟨hd, List.nodup_singleton k, fun x hx hx2 => ?_⟩
    rw [List.mem_singleton] at hx2
    subst hx2
    exact hmem hx

/-- The per-entry step leaves `files_by_source` unchanged or extends it
through `dictAppend`. -/
theorem processEntry_fbs (fs : FS) (sources : SVal) (root : String)
    (st : FpcState) (fpath : String) (st' : FpcState)
    (h : processEntry fs sources root st fpath = .ok st') :
    st'.filesBySource = st.filesBySource ∨
    ∃ k fl, st'.filesBySource = dictAppend st.filesBySource k fl := by
  unfold processEntry at h
  cases hsp : source_for_path sources st.cache (strSplitOnChar '.' fpath) with
  | ok trip =>
    obtain ⟨key, fileSource, cache1⟩ := trip
    simp only [hsp] at h
    cases hsv : svalGet fileSource "postcollect" with
    | error e =>
      simp only [hsv, exceptBind_error] at h
      exact absurd h (by simp)
    | ok ov =>
      simp only [hsv, exceptBind_ok] at h
      cases ov with
      | some pv =>
        simp only at h
        by_cases ht : truthy (some pv) = true
        · rw [if_pos ht] at h
          injection h with h
          subst h
          exact Or.inr ⟨key, _, rfl⟩
        · rw [if_neg ht] at h
          injection h with h
          subst h
          exact Or.inl rfl
      | none =>
        simp only at h
        injection h with h
        subst h
        exact Or.inl rfl
  | error e =>
    cases e with
    | keyError k =>
      simp only [hsp] at h
      by_cases hsw : strStartsWith (abspath fs fpath) root
      · rw [show (!strStartsWith (abspath fs fpath) root) = false by
          simp [hsw]] at h
        simp only [Bool.false_eq_true, if_false] at h
        cases hsp2 : source_for_path sources st.cache
            ((strSplitOnChar '/'
              (relpath (dirname (abspath fs fpath)) root)).filter
              (· ≠ "")) with
        | ok trip =>
          obtain ⟨key, fileSource, cache1⟩ := trip
          simp only [hsp2] at h
          cases hsv : svalGet fileSource "postcollect" with
          | error e2 =>
            simp only [hsv, exceptBind_error] at h
            exact absurd h (by simp)
          | ok ov =>
            simp only [hsv, exceptBind_ok] at h
            cases ov with
            | some pv =>
              simp only at h
              by_cases ht : truthy (some pv) = true
              · rw [if_pos ht] at h
                injection h with h
                subst h
                exact Or.inr ⟨key, _, rfl⟩
              · rw [if_neg ht] at h
                injection h with h
                subst h
                exact Or.inl rfl
            | none =>
              simp only at h
              injection h with h
              subst h
              exact Or.inl rfl
        | error e2 =>
          cases e2 with
          | keyError k2 =>
            simp only [hsp2] at h
            injection h with h
            subst h
            exact Or.inl rfl
          | typeError =>
            simp only [hsp2] at h
            exact absurd h (by simp)
          | attributeError =>
            simp only [hsp2] at h
            exact absurd h (by simp)
      · rw [show (!strStartsWith (abspath fs fpath) root) = true by
          simp [hsw]] at h
        simp only [if_true] at h
        injection h with h
        subst h
        exact Or.inl rfl
    | typeError =>
      simp only [hsp] at h
      exact absurd h (by simp)
    | attributeError =>
      simp only [hsp] at h
      exact absurd h (by simp)

/-- The entry fold preserves distinctness of the `files_by_source` keys. -/
theorem foldlM_entries_nodup (fs : FS) (sources : SVal) (root : String) :
    ∀ (files : List String) (st st' : FpcState),
      (st.filesBySource.map Prod.fst).Nodup →
      files.foldlM (processEntry fs sources root) st = .ok st' →
      (st'.filesBySource.map Prod.fst).Nodup := by
  intro files
  induction files with
  | nil =>
    intro st st' hnd h
    simp only [List.foldlM_nil] at h
    injection h with h
    subst h
    exact hnd
  | cons f rest ih =>
    intro st st' hnd h
    simp only [List.foldlM_cons] at h
    cases hpe : processEntry fs sources root st f with
    | error e =>
      simp only [hpe, exceptBind_error] at h
      exact absurd h (by simp)
    | ok st1 =>
      simp only [hpe, exceptBind_ok] at h
      have hstep := processEntry_fbs fs sources root st f st1 hpe
      rcases hstep with heq | ⟨k, fl, heq⟩
      · exact ih st1 st' (heq ▸ hnd) h
      · exact ih st1 st' (heq ▸ dictAppend_nodup k fl _ hnd) h

/-- The final loop yields one batch per `files_by_source` key, whose path
is the key split on dots. -/
theorem finalBatches_paths (root : String) (cache : Cache) :
    ∀ (fbs : List (String × List String)) (batches : List PostCollectFiles),
      finalBatches root cache fbs = .ok batches →
      batches.map (fun b => b.path) =
        fbs.map (fun p => strSplitOnChar '.' p.1) := by
  intro fbs
  induction fbs with
  | nil =>
    intro batches h
    rw [finalBatches] at h
    injection h with h
    subst h
    rfl
  | cons p rest ih =>
    obtain ⟨key, fls⟩ := p
    intro batches h
    rw [finalBatches] at h
    cases hlk : List.lookup key cache with
    | none =>
      simp only [hlk, exceptBind_error] at h
      exact absurd h (by simp)
    | some node =>
      simp only [hlk, exceptBind_ok] at h
      cases hpcv : svalIndex node "postcollect" with
      | error e =>
        simp only [hpcv, exceptBind_error] at h
        exact absurd h (by simp)
      | ok pcv =>
        simp only [hpcv, exceptBind_ok] at h
        cases htail : finalBatches root cache rest with
        | error e =>
          simp only [htail, exceptBind_error] at h
          exact absurd h (by simp)
        | ok tail =>
          simp only [htail, exceptBind_ok] at h
          injection h with h
          subst h
          simp only [List.map_cons]
          rw [ih tail htail]

/-- C4 (amended): entries resolving to the same source are merged into a
single batch — the batch paths of `files_postcollect_commands` are
pairwise distinct — but the merged file set is the *concatenation* of the
entries' file lists (duplicates are preserved, not removed):
`files_by_source[key] += files` appends. -/
theorem C4_amended :
    (∀ (fs : FS) (files : List String) (srcs : List (String × SVal))
       (root : String) (batches : List PostCollectFiles)
       (logs : List LogMsg),
      files_postcollect_commands fs files srcs root = .ok (batches, logs) →
      (batches.map (fun b => b.path)).Nodup) ∧
    (∀ (d : List (String × List String)) (k : String) (v : List String)
       (k' : String),
      List.lookup k' (dictAppend d k v) =
        if k' = k then some ((List.lookup k d).getD [] ++ v)
        else List.lookup k' d) := by
  constructor
  · intro fs files srcs root batches logs h
    unfold files_postcollect_commands at h
    cases hfold : files.foldlM (processEntry fs (.vdict srcs) root)
        ⟨[], [], []⟩ with
    | error e =>
      simp only [hfold, exceptBind_error] at h
      exact absurd h (by simp)
    | ok st =>
      simp only [hfold, exceptBind_ok] at h
      cases hfb : finalBatches root st.cache st.filesBySource with
      | error e =>
        simp only [hfb, exceptBind_error] at h
        exact absurd h (by simp)
      | ok bs =>
        simp only [hfb, exceptBind_ok] at h
        injection h with h
        injection h with hb hl
        subst hb
        have hnd : (st.filesBySource.map Prod.fst).Nodup :=
          foldlM_entries_nodup fs (.vdict srcs) root files ⟨[], [], []⟩ st
            (by simp) hfold
        rw [finalBatches_paths root st.cache st.filesBySource bs hfb]
        rw [show (fun p : String × List String => strSplitOnChar '.' p.1) =
          (fun k => strSplitOnChar '.' k) ∘ Prod.fst from rfl]
        rw [← List.map_map]
        exact hnd.map (strSplitOnChar_injective '.')
  · intro d k v k'
    induction d with
    | nil =>
      rw [dictAppend]
      by_cases hk : k' = k
      · subst hk
        simp [List.lookup]
      · have hb : (k' == k) = false := beq_eq_false_iff_ne.mpr hk
        simp [List.lookup, hb, hk]
    | cons p rest ih =>
      obtain ⟨k2, xs⟩ := p
      rw [dictAppend]
      by_cases h2 : k2 = k
      · subst h2
        by_cases hk : k' = k2
        · subst hk
          simp [List.lookup]
        · have hb : (k' == k2) = false := beq_eq_false_iff_ne.mpr hk
          simp [List.lookup, hb, hk]
      · rw [if_neg h2]
        by_cases hk : k' = k2
        · subst hk
          have hb2 : (k' == k) = false :=
            beq_eq_false_iff_ne.mpr (fun hc => h2 (hc ▸ rfl))
          have hkk : ¬ (k' = k) := fun hc => h2 (hc ▸ rfl)
          simp [List.lookup, hkk, hb2]
        · have hb : (k' == k2) = false := beq_eq_false_iff_ne.mpr hk
          have hb2 : (k == k2) = false :=
            beq_eq_false_iff_ne.mpr (fun hc => h2 hc.symm)
          simp only [List.lookup, hb, ih]
          by_cases hkk : k' = k
          · subst hkk
            simp [List.lookup, hb2, hb]
          · simp [hkk]

/-- C4 witness: the duplicate-entry scenario still yields exactly one
batch for the source `a`, and `dictAppend` concatenates under an existing
key. -/
theorem C4_witness :
    (([⟨["p"], ["a"], "/r/a", ["/r/a/f1", "/r/a/f1"]⟩] :
        List PostCollectFiles).map (fun b => b.path)).Nodup ∧
    List.lookup "a" (dictAppend [("a", ["x"])] "a" ["y"]) =
      some ["x", "y"] := by
  constructor
  · exact C4_amended.1 c8FS ["a", "a"] [("a", c8node)] "/r"
      [⟨["p"], ["a"], "/r/a", ["/r/a/f1", "/r/a/f1"]⟩] [] (by rfl)
  · have h := C4_amended.2 [("a", ["x"])] "a" ["y"] "a"
    simpa using h

end LowattCollect
